import Mathlib

/-!
Shallow embedding of the core of the `globmatch` crate (src/utils.rs,
src/wrappers.rs, src/iters.rs, src/lib.rs) and proofs about the claims of
its specification.

Rust strings (`&str`) are modelled as `List Char`; `&pattern[i..]` becomes
`List.drop i`. Rust `Path`/`PathBuf` values are modelled by their
`components()` view, a `List Component`, together with the textual push/pop
semantics of `PathBuf` (`pushComp`, `popComp`, `compsToString`). The
filesystem that `Path::exists()` consults is an abstract structure `Fs`
(a set of existing nodes, of which some are traversable directories),
resolved with `stat`-like semantics by `Fs.statFrom`. A Rust panic is
modelled as `none` in an `Option`-typed result, so that a function that
can panic is distinguishable from one that returns. The directory walk
of `walkdir` is modelled by a rose tree `FTree` walked in depth-first
preorder, and compiled glob matchers (`globset`, an external collaborator
in the spec) are abstract Boolean predicates.
-/

deriving instance DecidableEq for Except

namespace Globmatch

/-- The characters of a Rust string slice. -/
abbrev Str := List Char

/-- Abbreviation to write string literals as character lists. -/
def chars (s : String) : Str := s.data

/-- Rust `std::path::Component` on unix: `RootDir`, `CurDir` (`.`),
`ParentDir` (`..`) and `Normal` named components. (`Prefix` exists only on
Windows and is not modelled.) -/
inductive Component where
  | rootDir : Component
  | curDir : Component
  | parentDir : Component
  | normal : Str → Component
deriving DecidableEq, Repr

/-- Whether a component is a `Normal` component. -/
def isNormal : Component → Bool
  | Component.normal _ => true
  | _ => false

/-- Split a string at every '/' character, like splitting a unix path into
its segments (empty segments are produced for repeated separators). -/
def splitOnSlash : Str → List Str
  | [] => [[]]
  | c :: cs =>
    let r := splitOnSlash cs
    if c = '/' then [] :: r
    else
      match r with
      | s :: rest => (c :: s) :: rest
      | [] => [[c]]

/-- The components contributed by a list of path segments: empty segments
and `.` segments are dropped, `..` becomes `ParentDir`, anything else is a
`Normal` component. This mirrors the body of Rust's `Components` iterator. -/
def segComps (segs : List Str) : List Component :=
  segs.filterMap fun seg =>
    if seg = [] then none
    else if seg = ['.'] then none
    else if seg = ['.', '.'] then some Component.parentDir
    else some (Component.normal seg)

/-- Rust `Path::is_absolute` on unix: the path has a root, i.e. starts
with '/'. -/
def isAbsolute : Str → Bool
  | '/' :: _ => true
  | _ => false

/-- Rust `Path::new(s).components()` on unix: a leading '/' yields
`RootDir`; a leading `.` segment of a relative path is kept as `CurDir`;
all other `.` segments and empty segments are dropped. -/
def strComponents (s : Str) : List Component :=
  match s with
  | [] => []
  | '/' :: _ => Component.rootDir :: segComps (splitOnSlash s)
  | _ =>
    match splitOnSlash s with
    | [] => []
    | first :: rest =>
      if first = ['.'] then Component.curDir :: segComps rest
      else segComps (first :: rest)

/-- The text of a single component (`Component::as_os_str`). -/
def compStr : Component → Str
  | Component.rootDir => ['/']
  | Component.curDir => ['.']
  | Component.parentDir => ['.', '.']
  | Component.normal n => n

/-- The text of a relative `PathBuf` built by pushing the given components
onto an empty buffer: components joined by single '/' separators. -/
def compsToString : List Component → Str
  | [] => []
  | [c] => compStr c
  | c :: cs => compStr c ++ '/' :: compsToString cs

/-- Rust `PathBuf::push` of one component, at the level of the
`components()` view: pushing `.` onto a non-empty buffer does not change
the view, pushing an absolute component replaces the buffer, anything else
is appended. -/
def pushComp (p : List Component) : Component → List Component
  | Component.curDir => if p = [] then [Component.curDir] else p
  | Component.rootDir => [Component.rootDir]
  | c => p ++ [c]

/-- Rust `PathBuf::pop` (truncate to `parent()`): removes the last
component; popping the root or an empty buffer does nothing. -/
def popComp (p : List Component) : List Component :=
  if p = [] ∨ p = [Component.rootDir] then p else p.dropLast

/-- An abstract symlink-free filesystem as consulted by `Path::exists()`:
a set of existing canonical absolute paths (lists of names below the
filesystem root), of which the traversable ones are directories, plus the
current working directory against which relative paths are resolved. -/
structure Fs where
  exists_ : List Str → Bool
  isDir : List Str → Bool
  cwd : List Str
  isDir_root : isDir [] = true
  exists_of_isDir : ∀ p, isDir p = true → exists_ p = true
  isDir_parent : ∀ p x, exists_ (p ++ [x]) = true → isDir p = true

/-- Resolution of a component sequence against the filesystem starting
from the canonical directory `acc`, with `stat` semantics: every component
must be looked up inside an existing traversable directory, `..` steps to
the parent (the filesystem root is its own parent), and the final resolved
node must exist. -/
def Fs.statFrom (fs : Fs) : List Str → List Component → Bool
  | acc, [] => fs.exists_ acc
  | acc, c :: cs =>
    fs.isDir acc &&
      (match c with
       | Component.rootDir => fs.statFrom [] cs
       | Component.curDir => fs.statFrom acc cs
       | Component.parentDir => fs.statFrom acc.dropLast cs
       | Component.normal n => fs.statFrom (acc ++ [n]) cs)

/-- Rust `Path::exists()` for a path given as its components: the empty
path never exists, an absolute path resolves from the filesystem root and
a relative path from the current working directory. -/
def Fs.statPath (fs : Fs) (p : List Component) : Bool :=
  match p with
  | [] => false
  | Component.rootDir :: cs => fs.statFrom [] cs
  | cs => fs.statFrom fs.cwd cs

/-- The error kinds returned by `resolve_root` (`io::ErrorKind` values
used in src/utils.rs). -/
inductive RootError where
  | invalidInput : RootError
  | notFound : RootError
  | unsupported : RootError
deriving DecidableEq, Repr

/-- The component loop of `resolve_root` (src/utils.rs lines 46-61): while
still pushing into the root, tentatively push each pattern component onto
the root; if the result does not exist on disk, undo the push and divert
this and every later component into the remainder instead. `PathBuf::push`
appends the component's text, so the `exists()` check stats the raw path
`root ++ [c]`: in particular a pushed `.` requires the root itself to
resolve to a traversable directory (`stat("root/.")` fails with `ENOTDIR`
on a file). `PathBuf::pop` truncates to `parent()`, which reads the
normalized components view `pushComp root c` (a trailing `.` disappears
from it), so the undo is `popComp (pushComp root c)`: undoing a diverted
`.` drops a real trailing component of the root. (A `RootDir` component
never reaches this loop: `resolve_root` rejects absolute patterns before
running it.) -/
def absorbLoop (fs : Fs) : List Component → List Component → Bool → List Component →
    List Component × List Component
  | root, rest, _, [] => (root, rest)
  | root, rest, true, c :: cs =>
    if fs.statPath (root ++ [c]) then absorbLoop fs (pushComp root c) rest true cs
    else absorbLoop fs (popComp (pushComp root c)) (pushComp rest c) false cs
  | root, rest, false, c :: cs => absorbLoop fs root (pushComp rest c) false cs

/-- The component-level result of `resolve_root` before the final error
check and slicing: the absorption loop followed by the empty-remainder
workaround (src/utils.rs lines 63-72) that pops one trailing `Normal`
component of the root back into the remainder. -/
def resolveParts (fs : Fs) (base : List Component) (pattern : Str) :
    List Component × List Component :=
  if (absorbLoop fs base [] true (strComponents pattern)).2 = [] then
    match (absorbLoop fs base [] true (strComponents pattern)).1.getLast? with
    | some (Component.normal n) =>
      (popComp (absorbLoop fs base [] true (strComponents pattern)).1, [Component.normal n])
    | _ => absorbLoop fs base [] true (strComponents pattern)
  else absorbLoop fs base [] true (strComponents pattern)

/-- Rust `resolve_root` (src/utils.rs lines 13-98). Rejects an empty
pattern, a missing base and an absolute pattern, runs the absorption loop
and the workaround, rejects a remainder that still contains `..`, and
returns the root together with the trailing slice
`&pattern[pattern.len() - rest_len..]` of the original pattern, where
`rest_len` is the length of the stringified remainder. When `rest_len`
exceeds the pattern's length (the workaround can pop a base component
whose name is longer than the whole pattern) the `usize` subtraction
underflows and the slice indexing panics; that panic is modelled as
`none`. -/
def resolve_root (fs : Fs) (base : List Component) (pattern : Str) :
    Option (Except RootError (List Component × Str)) :=
  if pattern = [] then some (Except.error RootError.invalidInput)
  else if fs.statPath base = false then some (Except.error RootError.notFound)
  else if isAbsolute pattern then some (Except.error RootError.unsupported)
  else
    if (resolveParts fs base pattern).2.any (fun c => decide (c = Component.parentDir)) then
      some (Except.error RootError.invalidInput)
    else if pattern.length < (compsToString (resolveParts fs base pattern).2).length then
      none
    else
      some (Except.ok ((resolveParts fs base pattern).1,
        pattern.drop (pattern.length - (compsToString (resolveParts fs base pattern).2).length)))

/-- Purely lexical canonicalization of a component sequence starting from
the canonical directory `acc` (what `canonicalize` would return on a
symlink-free filesystem, ignoring existence): used to state where an
uncanonicalized root actually points. -/
def canonAcc : List Str → List Component → List Str
  | acc, [] => acc
  | _, Component.rootDir :: cs => canonAcc [] cs
  | acc, Component.curDir :: cs => canonAcc acc cs
  | acc, Component.parentDir :: cs => canonAcc acc.dropLast cs
  | acc, Component.normal n :: cs => canonAcc (acc ++ [n]) cs

/-! The matching pipeline of src/wrappers.rs and src/iters.rs. A directory
tree is a rose tree of named nodes; the walk of `walkdir` visits it in
depth-first preorder and `filter_entry` prunes a whole subtree when its
entry fails the predicate (the predicate receives the absolute entry
path). A compiled glob matcher is an abstract Boolean predicate on the
path relative to the matcher's resolved root. -/

/-- A directory subtree: a name and the subtrees of its children. -/
inductive FTree where
  | node : Str → List FTree → FTree

mutual

/-- The pruned depth-first preorder walk of one subtree whose parent
directory has the given absolute path: if the entry passes the predicate
it is yielded and its children are walked, otherwise the whole subtree is
skipped (walkdir `filter_entry` semantics). -/
def walkNode (pred : List Str → Bool) (parent : List Str) : FTree → List (List Str)
  | FTree.node name children =>
    if pred (parent ++ [name]) then
      (parent ++ [name]) :: walkForest pred (parent ++ [name]) children
    else []

/-- The pruned walk of a list of sibling subtrees, in order. -/
def walkForest (pred : List Str → Bool) (parent : List Str) : List FTree → List (List Str)
  | [] => []
  | t :: ts => walkNode pred parent t ++ walkForest pred parent ts

end

/-- The full pruned walk rooted at `root`: walkdir yields the root entry
itself first (it is also subject to the `filter_entry` predicate), then
the entries below it. -/
def walkEntries (pred : List Str → Bool) (root : List Str) (children : List FTree) :
    List (List Str) :=
  if pred root then root :: walkForest pred root children else []

/-- Rust `is_hidden_entry` (src/utils.rs lines 116-128): the final path
component starts with a dot (an empty path falls back to its own empty
text and is not hidden). -/
def isHiddenEntry (p : List Str) : Bool :=
  match p.getLast? with
  | some (c :: _) => c = '.'
  | _ => false

/-- A built `Matcher` at the point where `match_paths` consumes it: its
resolved root path, the directory tree found below that root, and the
compiled remainder matcher, which tests the path of a visited entry
relative to the root (src/lib.rs `Matcher`, src/iters.rs strip-prefix and
match step). -/
structure MMatcher where
  root : List Str
  children : List FTree
  glob : List Str → Bool

/-- The `filter_entry` predicate used by `match_paths` (src/wrappers.rs
lines 177-195): with a pre-filter, keep an entry iff it matches none of
the pre-filter glob sets; with none, keep an entry iff it is not hidden. -/
def entryPred (filterEntry : Option (List (List Str → Bool))) (p : List Str) : Bool :=
  match filterEntry with
  | some patterns => !(patterns.any fun g => g p)
  | none => !(isHiddenEntry p)

/-- The paths one matcher contributes in `match_paths`: the pruned walk of
its root, keeping the entries whose root-relative path matches the
compiled glob (src/iters.rs `match_next`). -/
def matcherYield (filterEntry : Option (List (List Str → Bool))) (m : MMatcher) :
    List (List Str) :=
  (walkEntries (entryPred filterEntry) m.root m.children).filter
    (fun p => m.glob (p.drop m.root.length))

/-- The post-filter test of `match_paths` (src/wrappers.rs lines 200-215):
a surviving path is kept iff there is no post-filter pattern matching it;
a path matching some post-filter pattern is diverted into `filtered`. -/
def postKeeps (filterPost : Option (List (List Str → Bool))) (p : List Str) : Bool :=
  match filterPost with
  | none => true
  | some patterns => !(patterns.any fun g => g p)

/-- Rust `Vec::dedup`: remove consecutive repeated elements. -/
def dedupAdj : List (List Str) → List (List Str)
  | [] => []
  | [a] => [a]
  | a :: b :: rest => if a = b then dedupAdj (b :: rest) else a :: dedupAdj (b :: rest)

/-- `sort_unstable` followed by `dedup` as applied to both result vectors
of `match_paths`. `PathBuf` orders component-wise, which for canonical
paths is the lexicographic order on the list of component names. -/
def sortDedup (l : List (List Str)) : List (List Str) :=
  dedupAdj (List.insertionSort (· ≤ ·) l)

/-- Rust `match_paths` (src/wrappers.rs lines 163-225): concatenate every
matcher's pruned, matched walk, split the stream by the post-filter into
accepted and filtered-out paths, and sort and deduplicate both. -/
def match_paths (candidates : List MMatcher)
    (filterEntry filterPost : Option (List (List Str → Bool))) :
    List (List Str) × List (List Str) :=
  let all := candidates.flatMap (fun m => matcherYield filterEntry m)
  let accepted := all.filter (fun p => postKeeps filterPost p)
  let rejected := all.filter (fun p => !(postKeeps filterPost p))
  (sortDedup accepted, sortDedup rejected)

/-- The unix string representation of an absolute path given by its
component names, used to state claims about "full path string
comparison". -/
def pathString (p : List Str) : Str :=
  p.foldl (fun acc s => acc ++ '/' :: s) []

/-! Concrete instances used by witnesses and counterexamples. -/

/-- The canonical nodes of the small demonstration filesystem: the root,
`/d`, `/d/a` and `/d/a/b`, all of them directories. -/
def demoMem (p : List Str) : Bool :=
  decide (p = []) || decide (p = [chars "d"]) ||
    decide (p = [chars "d", chars "a"]) || decide (p = [chars "d", chars "a", chars "b"])

/-- A small concrete filesystem holding the directories `/d`, `/d/a` and
`/d/a/b`, with the filesystem root as working directory. -/
def demoFs : Fs where
  exists_ := demoMem
  isDir := demoMem
  cwd := []
  isDir_root := by decide
  exists_of_isDir := fun p h => h
  isDir_parent := by
    intro p x h
    have hp : p = (p ++ [x]).dropLast := List.dropLast_concat.symm
    simp only [demoMem, Bool.or_eq_true, decide_eq_true_eq] at h
    rcases h with ((h | h) | h) | h
    · exact absurd h (by simp)
    · rw [h] at hp
      rw [hp]
      decide
    · rw [h] at hp
      rw [hp]
      decide
    · rw [h] at hp
      rw [hp]
      decide

/-- The base directory `/d` of the demonstration filesystem. -/
def demoBase : List Component := [Component.rootDir, Component.normal (chars "d")]

/-- The nodes of a second demonstration filesystem: the root and one
directory `/dd` whose two-character name is longer than the one-character
pattern `.`. -/
def demoMemDD (p : List Str) : Bool :=
  decide (p = []) || decide (p = [chars "dd"])

/-- A concrete filesystem holding only the directory `/dd`, with the
filesystem root as working directory. -/
def demoFsDD : Fs where
  exists_ := demoMemDD
  isDir := demoMemDD
  cwd := []
  isDir_root := by decide
  exists_of_isDir := fun p h => h
  isDir_parent := by
    intro p x h
    have hp : p = (p ++ [x]).dropLast := List.dropLast_concat.symm
    simp only [demoMemDD, Bool.or_eq_true, decide_eq_true_eq] at h
    rcases h with h | h
    · exact absurd h (by simp)
    · rw [h] at hp
      rw [hp]
      decide

/-- A small concrete filesystem with the directory `/d` holding one
regular file `f`: the file exists but is not traversable. -/
def demoFsF : Fs where
  exists_ := fun p =>
    decide (p = []) || decide (p = [chars "d"]) || decide (p = [chars "d", chars "f"])
  isDir := fun p => decide (p = []) || decide (p = [chars "d"])
  cwd := []
  isDir_root := by decide
  exists_of_isDir := by
    intro p h
    simp only [Bool.or_eq_true, decide_eq_true_eq] at h ⊢
    rcases h with h | h
    · exact Or.inl (Or.inl h)
    · exact Or.inl (Or.inr h)
  isDir_parent := by
    intro p x h
    have hp : p = (p ++ [x]).dropLast := List.dropLast_concat.symm
    simp only [Bool.or_eq_true, decide_eq_true_eq] at h
    rcases h with (h | h) | h
    · exact absurd h (by simp)
    · rw [h] at hp
      rw [hp]
      decide
    · rw [h] at hp
      rw [hp]
      decide

/-- A directory `a` holding one file `c`. -/
def demoTreeA : FTree := FTree.node (chars "a") [FTree.node (chars "c") []]

/-- A directory `a-b` holding one file `c`. -/
def demoTreeAB : FTree := FTree.node (chars "a-b") [FTree.node (chars "c") []]

/-- A hidden directory `.hidden` holding one file `h.txt`. -/
def demoTreeHidden : FTree := FTree.node (chars ".hidden") [FTree.node (chars "h.txt") []]

/-- A matcher over root `r` with children `a-b` and `a`, matching every
entry whose final component is `c` (like the glob `*/c`). -/
def demoM8 : MMatcher where
  root := [chars "r"]
  children := [demoTreeAB, demoTreeA]
  glob := fun rel => decide (rel.getLast? = some (chars "c"))

/-- A matcher over the same tree matching exactly the relative path
`a/c`, overlapping with `demoM8` on one path. -/
def demoMC : MMatcher where
  root := [chars "r"]
  children := [demoTreeAB, demoTreeA]
  glob := fun rel => decide (rel = [chars "a", chars "c"])

/-- A matcher over root `r` with a hidden directory and a visible one,
matching every non-empty relative path. -/
def demoMHid : MMatcher where
  root := [chars "r"]
  children := [demoTreeHidden, demoTreeA]
  glob := fun rel => decide (rel ≠ [])

/-- A matcher whose resolved root lies inside the hidden directory of the
same tree (the root resolver absorbs existing components, hidden or not,
into the root), matching everything it walks. -/
def demoMSubHid : MMatcher where
  root := [chars "r", chars ".hidden", chars "h.txt"]
  children := []
  glob := fun _ => true

/-! Basic lemmas about the path model. -/

theorem pushComp_ne_nil (p : List Component) (c : Component) : pushComp p c ≠ [] := by
  cases c with
  | curDir =>
    simp only [pushComp]
    split
    · simp
    · assumption
  | rootDir => simp [pushComp]
  | parentDir => simp [pushComp]
  | normal n => simp [pushComp]

theorem pushComp_eq_append (p : List Component) (c : Component)
    (h₁ : c ≠ Component.curDir) (h₂ : c ≠ Component.rootDir) :
    pushComp p c = p ++ [c] := by
  cases c <;> simp_all [pushComp]

theorem popComp_append (p : List Component) (c : Component)
    (h : c ≠ Component.rootDir) : popComp (p ++ [c]) = p := by
  unfold popComp
  rw [if_neg, List.dropLast_concat]
  rintro (h1 | h1)
  · exact absurd h1 (by simp)
  · have hp : p = [] := by
      have hl := congrArg List.length h1
      simp only [List.length_append, List.length_cons, List.length_nil] at hl
      exact List.length_eq_zero.mp (by omega)
    subst hp
    simp only [List.nil_append, List.cons.injEq] at h1
    exact h h1.1

theorem popComp_pushComp (p : List Component) (c : Component)
    (h₁ : c ≠ Component.curDir) (h₂ : c ≠ Component.rootDir) :
    popComp (pushComp p c) = p := by
  rw [pushComp_eq_append p c h₁ h₂, popComp_append p c h₂]

theorem foldl_pushComp_ne_nil (cs : List Component) :
    ∀ p : List Component, p ≠ [] → List.foldl pushComp p cs ≠ [] := by
  induction cs with
  | nil => intro p hp; simpa using hp
  | cons c cs ih =>
    intro p _
    rw [List.foldl_cons]
    exact ih (pushComp p c) (pushComp_ne_nil p c)

theorem foldl_pushComp_nil_ne_nil (cs : List Component) (h : cs ≠ []) :
    List.foldl pushComp [] cs ≠ [] := by
  cases cs with
  | nil => exact absurd rfl h
  | cons c cs =>
    rw [List.foldl_cons]
    exact foldl_pushComp_ne_nil cs (pushComp [] c) (pushComp_ne_nil [] c)

theorem foldl_pushComp_append (cs : List Component) :
    ∀ p : List Component,
    (∀ c ∈ cs, c ≠ Component.curDir ∧ c ≠ Component.rootDir) →
    List.foldl pushComp p cs = p ++ cs := by
  induction cs with
  | nil => intro p _; simp
  | cons c cs ih =>
    intro p h
    rw [List.foldl_cons,
      pushComp_eq_append p c (h c (by simp)).1 (h c (by simp)).2,
      ih (p ++ [c]) (fun x hx => h x (by simp [hx]))]
    simp

theorem foldl_pushComp_filter (cs : List Component) :
    ∀ p : List Component, p ≠ [] →
    (∀ c ∈ cs, c ≠ Component.rootDir) →
    List.foldl pushComp p cs = p ++ cs.filter (fun c => decide (c ≠ Component.curDir)) := by
  induction cs with
  | nil => intro p _ _; simp
  | cons c cs ih =>
    intro p hp h
    rw [List.foldl_cons]
    by_cases hc : c = Component.curDir
    · subst hc
      have : pushComp p Component.curDir = p := by simp [pushComp, hp]
      rw [this, ih p hp (fun x hx => h x (by simp [hx]))]
      simp
    · rw [pushComp_eq_append p c hc (h c (by simp)),
        ih (p ++ [c]) (by simp) (fun x hx => h x (by simp [hx]))]
      simp [hc]

theorem mem_segComps (segs : List Str) (c : Component) (h : c ∈ segComps segs) :
    c = Component.parentDir ∨
      ∃ n, c = Component.normal n ∧ n ≠ [] ∧ n ≠ ['.'] ∧ n ≠ ['.', '.'] := by
  unfold segComps at h
  rcases List.mem_filterMap.mp h with ⟨seg, _, hseg⟩
  by_cases h1 : seg = []
  · simp [h1] at hseg
  by_cases h2 : seg = ['.']
  · simp [h1, h2] at hseg
  by_cases h3 : seg = ['.', '.']
  · simp [h1, h2, h3] at hseg
    exact Or.inl hseg.symm
  · simp [h1, h2, h3] at hseg
    exact Or.inr ⟨seg, hseg.symm, h1, h2, h3⟩

theorem segComps_no_curDir (segs : List Str) : Component.curDir ∉ segComps segs := by
  intro h
  rcases mem_segComps segs Component.curDir h with h | ⟨n, h, _⟩ <;> exact Component.noConfusion h

theorem segComps_no_rootDir (segs : List Str) : Component.rootDir ∉ segComps segs := by
  intro h
  rcases mem_segComps segs Component.rootDir h with h | ⟨n, h, _⟩ <;> exact Component.noConfusion h

theorem strComponents_no_rootDir (s : Str) (habs : isAbsolute s = false) :
    Component.rootDir ∉ strComponents s := by
  unfold strComponents
  split
  · simp
  · simp_all [isAbsolute]
  · split
    · simp
    · split
      · intro h
        rcases List.mem_cons.mp h with h | h
        · exact Component.noConfusion h
        · exact segComps_no_rootDir _ h
      · exact segComps_no_rootDir _

theorem strComponents_tail_no_curDir (s : Str) :
    Component.curDir ∉ (strComponents s).tail := by
  unfold strComponents
  split
  · simp
  · simp only [List.tail_cons]
    exact segComps_no_curDir _
  · split
    · simp
    · split
      · simp only [List.tail_cons]
        exact segComps_no_curDir _
      · intro h
        exact segComps_no_curDir _ (List.mem_of_mem_tail h)

theorem absorbLoop_false (fs : Fs) (cs : List Component) :
    ∀ root rest, absorbLoop fs root rest false cs = (root, List.foldl pushComp rest cs) := by
  induction cs with
  | nil => intro root rest; rfl
  | cons c cs ih =>
    intro root rest
    rw [List.foldl_cons, ← ih root (pushComp rest c)]
    rfl

theorem absorbLoop_spec (fs : Fs) (cs : List Component) :
    ∀ root : List Component, root ≠ [] → fs.statPath root = true →
    Component.rootDir ∉ cs → Component.curDir ∉ cs.tail →
    ∃ pre suf, cs = pre ++ suf ∧
      List.foldl pushComp root pre ≠ [] ∧
      fs.statPath (List.foldl pushComp root pre) = true ∧
      ((suf = [] ∧ absorbLoop fs root [] true cs = (List.foldl pushComp root pre, [])) ∨
        ∃ c cs', suf = c :: cs' ∧
          fs.statPath (List.foldl pushComp root pre ++ [c]) = false ∧
          absorbLoop fs root [] true cs =
            (popComp (pushComp (List.foldl pushComp root pre) c),
              List.foldl pushComp [] suf) ∧
          (c = Component.curDir → pre = [])) := by
  induction cs with
  | nil =>
    intro root hne hstat _ _
    exact ⟨[], [], by simp, by simpa using hne, by simpa using hstat, Or.inl ⟨rfl, rfl⟩⟩
  | cons c cs ih =>
    intro root hne hstat hnr hct
    rw [List.tail_cons] at hct
    by_cases hpush : fs.statPath (root ++ [c]) = true
    · have hstatp : fs.statPath (pushComp root c) = true := by
        by_cases hc : c = Component.curDir
        · subst hc
          rw [show pushComp root Component.curDir = root from by simp [pushComp, hne]]
          exact hstat
        · rw [pushComp_eq_append root c hc (fun h => hnr (by simp [h]))]
          exact hpush
      obtain ⟨pre, suf, hsplit, hne', hstat', hdisj⟩ :=
        ih (pushComp root c) (pushComp_ne_nil root c) hstatp
          (fun h => hnr (List.mem_cons_of_mem _ h))
          (fun h => hct (List.mem_of_mem_tail h))
      refine ⟨c :: pre, suf, by simp [hsplit], ?_, ?_, ?_⟩
      · rw [List.foldl_cons]
        exact hne'
      · rw [List.foldl_cons]
        exact hstat'
      · have hstep : absorbLoop fs root [] true (c :: cs) =
            absorbLoop fs (pushComp root c) [] true cs := by
          simp [absorbLoop, hpush]
        rcases hdisj with ⟨hsuf, hloop⟩ | ⟨c', cs', hcc, hfail, hloop, _⟩
        · exact Or.inl ⟨hsuf, by rw [hstep, hloop, List.foldl_cons]⟩
        · refine Or.inr ⟨c', cs', hcc, by rw [List.foldl_cons]; exact hfail, ?_, ?_⟩
          · rw [hstep, hloop, List.foldl_cons]
          · intro hcur
            exact absurd (by rw [hsplit, hcc, hcur]; exact
              List.mem_append_right pre (List.mem_cons_self _ _)) hct
    · refine ⟨[], c :: cs, by simp, by simpa using hne, by simpa using hstat,
        Or.inr ⟨c, cs, rfl, by simpa using hpush, ?_, fun _ => rfl⟩⟩
      rw [show absorbLoop fs root [] true (c :: cs) =
        absorbLoop fs (popComp (pushComp root c)) (pushComp [] c) false cs from by
          simp [absorbLoop, hpush]]
      rw [absorbLoop_false, List.foldl_cons]
      simp

theorem absorbLoop_absorbed (fs : Fs) (cs : List Component) :
    ∀ root r : List Component, absorbLoop fs root [] true cs = (r, []) →
    r = List.foldl pushComp root cs ∧
    ∀ cs₂, absorbLoop fs root [] true (cs ++ cs₂) = absorbLoop fs r [] true cs₂ := by
  induction cs with
  | nil =>
    intro root r h
    have : root = r := congrArg Prod.fst h
    subst this
    exact ⟨rfl, fun cs₂ => rfl⟩
  | cons c cs ih =>
    intro root r h
    by_cases hpush : fs.statPath (root ++ [c]) = true
    · have hstep : absorbLoop fs root [] true (c :: cs) =
          absorbLoop fs (pushComp root c) [] true cs := by
        simp [absorbLoop, hpush]
      rw [hstep] at h
      obtain ⟨h1, h2⟩ := ih (pushComp root c) r h
      refine ⟨by rw [List.foldl_cons, ← h1], fun cs₂ => ?_⟩
      rw [List.cons_append, show absorbLoop fs root [] true (c :: (cs ++ cs₂)) =
        absorbLoop fs (pushComp root c) [] true (cs ++ cs₂) from by
          simp [absorbLoop, hpush]]
      exact h2 cs₂
    · exfalso
      have hstep : absorbLoop fs root [] true (c :: cs) =
          absorbLoop fs (popComp (pushComp root c)) (pushComp [] c) false cs := by
        simp [absorbLoop, hpush]
      rw [hstep, absorbLoop_false] at h
      exact foldl_pushComp_ne_nil cs (pushComp [] c) (pushComp_ne_nil [] c)
        (congrArg Prod.snd h)

theorem statFrom_append_normal (fs : Fs) (cs : List Component) :
    ∀ acc n, fs.statFrom acc (cs ++ [Component.normal n]) = true →
    fs.statFrom acc cs = true := by
  induction cs with
  | nil =>
    intro acc n h
    simp only [List.nil_append, Fs.statFrom, Bool.and_eq_true] at h
    exact fs.exists_of_isDir acc h.1
  | cons c cs ih =>
    intro acc n h
    rw [List.cons_append] at h
    cases c with
    | rootDir =>
      simp only [Fs.statFrom, Bool.and_eq_true] at h ⊢
      exact ⟨h.1, ih [] n h.2⟩
    | curDir =>
      simp only [Fs.statFrom, Bool.and_eq_true] at h ⊢
      exact ⟨h.1, ih acc n h.2⟩
    | parentDir =>
      simp only [Fs.statFrom, Bool.and_eq_true] at h ⊢
      exact ⟨h.1, ih acc.dropLast n h.2⟩
    | normal m =>
      simp only [Fs.statFrom, Bool.and_eq_true] at h ⊢
      exact ⟨h.1, ih (acc ++ [m]) n h.2⟩

theorem statPath_ne_nil (fs : Fs) (p : List Component) (h : fs.statPath p = true) :
    p ≠ [] := by
  intro hp
  subst hp
  simp [Fs.statPath] at h

theorem statPath_pop_normal (fs : Fs) (p : List Component) (n : Str)
    (h : fs.statPath p = true) (hl : p.getLast? = some (Component.normal n))
    (hne : p.dropLast ≠ []) : fs.statPath p.dropLast = true := by
  have hsplit : p.dropLast ++ [Component.normal n] = p :=
    List.dropLast_append_getLast? (Component.normal n) (by rw [hl]; rfl)
  cases hq : p.dropLast with
  | nil => exact absurd hq hne
  | cons q0 qs =>
    rw [hq] at hsplit
    cases q0 with
    | rootDir =>
      rw [← hsplit] at h
      simp only [Fs.statPath] at h ⊢
      rw [List.cons_append] at h
      exact statFrom_append_normal fs qs [] n h
    | curDir =>
      rw [← hsplit] at h
      simp only [Fs.statPath] at h ⊢
      exact statFrom_append_normal fs (Component.curDir :: qs) fs.cwd n h
    | parentDir =>
      rw [← hsplit] at h
      simp only [Fs.statPath] at h ⊢
      exact statFrom_append_normal fs (Component.parentDir :: qs) fs.cwd n h
    | normal m =>
      rw [← hsplit] at h
      simp only [Fs.statPath] at h ⊢
      exact statFrom_append_normal fs (Component.normal m :: qs) fs.cwd n h

theorem compsToString_cons (c : Component) (cs : List Component) (h : cs ≠ []) :
    compsToString (c :: cs) = compStr c ++ '/' :: compsToString cs := by
  cases cs with
  | nil => exact absurd rfl h
  | cons c' cs' => rfl

theorem compsToString_append (cs₁ cs₂ : List Component)
    (h₁ : cs₁ ≠ []) (h₂ : cs₂ ≠ []) :
    compsToString (cs₁ ++ cs₂) = compsToString cs₁ ++ '/' :: compsToString cs₂ := by
  induction cs₁ with
  | nil => exact absurd rfl h₁
  | cons c cs ih =>
    cases cs with
    | nil =>
      rw [List.singleton_append, compsToString_cons c cs₂ h₂]
      rfl
    | cons c' cs' =>
      rw [List.cons_append, compsToString_cons c ((c' :: cs') ++ cs₂) (by simp),
        compsToString_cons c (c' :: cs') (by simp), ih (by simp)]
      simp

theorem mem_strComponents_not_root_cur (s : Str) (habs : isAbsolute s = false)
    (c : Component) (hc : c ∈ strComponents s) (hhd : (strComponents s).head? ≠ some c) :
    c ≠ Component.curDir ∧ c ≠ Component.rootDir := by
  constructor
  · intro h
    subst h
    cases hcs : strComponents s with
    | nil => rw [hcs] at hc; exact absurd hc (by simp)
    | cons x xs =>
      rw [hcs] at hc hhd
      rcases List.mem_cons.mp hc with h | h
      · exact hhd (by rw [← h]; rfl)
      · have := strComponents_tail_no_curDir s
        rw [hcs] at this
        exact this h
  · intro h
    subst h
    exact strComponents_no_rootDir s habs hc

/-! Lemmas about the success and error paths of `resolve_root`. -/

theorem resolve_root_success_form (fs : Fs) (base : List Component) (pattern : Str)
    (hne : pattern ≠ []) (hbase : fs.statPath base = true) (habs : isAbsolute pattern = false)
    (hpd : (resolveParts fs base pattern).2.any
      (fun c => decide (c = Component.parentDir)) = false)
    (hlen : (compsToString (resolveParts fs base pattern).2).length ≤ pattern.length) :
    resolve_root fs base pattern = some (Except.ok ((resolveParts fs base pattern).1,
      pattern.drop (pattern.length - (compsToString (resolveParts fs base pattern).2).length))) := by
  unfold resolve_root
  rw [if_neg hne, if_neg (by simp [hbase]), if_neg (by simp [habs]), if_neg (by simp [hpd]),
    if_neg (by omega)]

theorem resolve_root_ok_elim (fs : Fs) (base : List Component) (pattern : Str)
    (root : List Component) (rest : Str)
    (h : resolve_root fs base pattern = some (Except.ok (root, rest))) :
    pattern ≠ [] ∧ fs.statPath base = true ∧ isAbsolute pattern = false ∧
    (resolveParts fs base pattern).2.any (fun c => decide (c = Component.parentDir)) = false ∧
    (compsToString (resolveParts fs base pattern).2).length ≤ pattern.length ∧
    root = (resolveParts fs base pattern).1 ∧
    rest = pattern.drop (pattern.length - (compsToString (resolveParts fs base pattern).2).length) := by
  unfold resolve_root at h
  by_cases h1 : pattern = []
  · rw [if_pos h1] at h
    exact absurd h (by simp)
  rw [if_neg h1] at h
  by_cases h2 : fs.statPath base = false
  · rw [if_pos h2] at h
    exact absurd h (by simp)
  rw [if_neg h2] at h
  by_cases h3 : isAbsolute pattern = true
  · rw [if_pos h3] at h
    exact absurd h (by simp)
  rw [if_neg h3] at h
  by_cases h4 : (resolveParts fs base pattern).2.any
      (fun c => decide (c = Component.parentDir)) = true
  · rw [if_pos h4] at h
    exact absurd h (by simp)
  rw [if_neg h4] at h
  by_cases h5 : pattern.length < (compsToString (resolveParts fs base pattern).2).length
  · rw [if_pos h5] at h
    exact absurd h (by simp)
  rw [if_neg h5] at h
  simp only [Option.some.injEq, Except.ok.injEq, Prod.mk.injEq] at h
  rw [Bool.not_eq_false] at h2
  rw [Bool.not_eq_true] at h3 h4
  exact ⟨h1, h2, h3, h4, by omega, h.1.symm, h.2.symm⟩

/-- C4 (amended): `resolve_root(base, pattern)` returns an error if and
only if one of the following holds, checked in this order: the pattern is
empty (`InvalidInput`), the base path does not exist (`NotFound`), the
pattern is an absolute path (`Unsupported`), or the remainder after
resolution contains a `ParentDir` component (`InvalidInput`). In every
other case it returns `Ok` provided the stringified remainder is no
longer than the pattern; when it is longer (the workaround can pop a base
component whose name is longer than the whole pattern), the byte-index
subtraction for the remainder slice underflows and the function panics
(modelled as `none`), so it is not true that it never panics: see
`C4_counterexample`. -/
theorem C4_error_taxonomy (fs : Fs) (base : List Component) (pattern : Str) (e : RootError) :
    (resolve_root fs base pattern = some (Except.error e) ↔
      (pattern = [] ∧ e = RootError.invalidInput) ∨
      (pattern ≠ [] ∧ fs.statPath base = false ∧ e = RootError.notFound) ∨
      (pattern ≠ [] ∧ fs.statPath base = true ∧ isAbsolute pattern = true ∧
        e = RootError.unsupported) ∨
      (pattern ≠ [] ∧ fs.statPath base = true ∧ isAbsolute pattern = false ∧
        (resolveParts fs base pattern).2.any
          (fun c => decide (c = Component.parentDir)) = true ∧
        e = RootError.invalidInput)) ∧
    (resolve_root fs base pattern = none ↔
      pattern ≠ [] ∧ fs.statPath base = true ∧ isAbsolute pattern = false ∧
      (resolveParts fs base pattern).2.any
        (fun c => decide (c = Component.parentDir)) = false ∧
      pattern.length < (compsToString (resolveParts fs base pattern).2).length) := by
  unfold resolve_root
  by_cases h1 : pattern = []
  · rw [if_pos h1]
    constructor
    · simp only [Option.some.injEq, Except.error.injEq]
      constructor
      · intro he
        exact Or.inl ⟨h1, he.symm⟩
      · rintro (⟨_, he⟩ | ⟨hne, _⟩ | ⟨hne, _⟩ | ⟨hne, _⟩)
        · exact he.symm
        all_goals exact absurd h1 hne
    · constructor
      · intro hn
        exact absurd hn (by simp)
      · rintro ⟨hne, _⟩
        exact absurd h1 hne
  rw [if_neg h1]
  by_cases h2 : fs.statPath base = false
  · rw [if_pos h2]
    constructor
    · simp only [Option.some.injEq, Except.error.injEq]
      constructor
      · intro he
        exact Or.inr (Or.inl ⟨h1, h2, he.symm⟩)
      · rintro (⟨he, _⟩ | ⟨_, _, he⟩ | ⟨_, ht, _⟩ | ⟨_, ht, _⟩)
        · exact absurd he h1
        · exact he.symm
        all_goals rw [h2] at ht; exact Bool.noConfusion ht
    · constructor
      · intro hn
        exact absurd hn (by simp)
      · rintro ⟨_, ht, _⟩
        rw [h2] at ht
        exact Bool.noConfusion ht
  rw [if_neg h2]
  rw [Bool.not_eq_false] at h2
  by_cases h3 : isAbsolute pattern = true
  · rw [if_pos h3]
    constructor
    · simp only [Option.some.injEq, Except.error.injEq]
      constructor
      · intro he
        exact Or.inr (Or.inr (Or.inl ⟨h1, h2, h3, he.symm⟩))
      · rintro (⟨he, _⟩ | ⟨_, hf, _⟩ | ⟨_, _, _, he⟩ | ⟨_, _, hf, _⟩)
        · exact absurd he h1
        · rw [h2] at hf; exact Bool.noConfusion hf
        · exact he.symm
        · rw [h3] at hf; exact Bool.noConfusion hf
    · constructor
      · intro hn
        exact absurd hn (by simp)
      · rintro ⟨_, _, hf, _⟩
        rw [h3] at hf
        exact Bool.noConfusion hf
  rw [if_neg h3]
  rw [Bool.not_eq_true] at h3
  by_cases h4 : (resolveParts fs base pattern).2.any
      (fun c => decide (c = Component.parentDir)) = true
  · rw [if_pos h4]
    constructor
    · simp only [Option.some.injEq, Except.error.injEq]
      constructor
      · intro he
        exact Or.inr (Or.inr (Or.inr ⟨h1, h2, h3, h4, he.symm⟩))
      · rintro (⟨he, _⟩ | ⟨_, hf, _⟩ | ⟨_, _, ht, _⟩ | ⟨_, _, _, _, he⟩)
        · exact absurd he h1
        · rw [h2] at hf; exact Bool.noConfusion hf
        · rw [h3] at ht; exact Bool.noConfusion ht
        · exact he.symm
    · constructor
      · intro hn
        exact absurd hn (by simp)
      · rintro ⟨_, _, _, hf, _⟩
        rw [h4] at hf
        exact Bool.noConfusion hf
  rw [if_neg h4]
  rw [Bool.not_eq_true] at h4
  by_cases h5 : pattern.length < (compsToString (resolveParts fs base pattern).2).length
  · rw [if_pos h5]
    constructor
    · constructor
      · intro he
        exact absurd he (by simp)
      · rintro (⟨he, _⟩ | ⟨_, hf, _⟩ | ⟨_, _, ht, _⟩ | ⟨_, _, _, ht, _⟩)
        · exact absurd he h1
        · rw [h2] at hf; exact Bool.noConfusion hf
        · rw [h3] at ht; exact Bool.noConfusion ht
        · rw [h4] at ht; exact Bool.noConfusion ht
    · constructor
      · intro _
        exact ⟨h1, h2, h3, h4, h5⟩
      · intro _
        rfl
  · rw [if_neg h5]
    constructor
    · constructor
      · intro he
        exact absurd he (by simp)
      · rintro (⟨he, _⟩ | ⟨_, hf, _⟩ | ⟨_, _, ht, _⟩ | ⟨_, _, _, ht, _⟩)
        · exact absurd he h1
        · rw [h2] at hf; exact Bool.noConfusion hf
        · rw [h3] at ht; exact Bool.noConfusion ht
        · rw [h4] at ht; exact Bool.noConfusion ht
    · constructor
      · intro hn
        exact absurd hn (by simp)
      · rintro ⟨_, _, _, _, hlt⟩
        exact absurd hlt h5

/-- C4 (counterexample): with the base directory `/dd` and the pattern
`.`, none of the four error conditions holds, yet `resolve_root` does not
return `Ok`: the absorption loop absorbs `.` (the base is a directory),
the workaround pops the base component `dd` into the remainder, and the
slice index `pattern.len() - rest_len = 1 - 2` underflows, a panic
(modelled as `none`); so it is not true that in every non-error case the
function returns `Ok` and never panics. -/
theorem C4_counterexample :
    (chars "." ≠ []) ∧
    demoFsDD.statPath [Component.rootDir, Component.normal (chars "dd")] = true ∧
    isAbsolute (chars ".") = false ∧
    (resolveParts demoFsDD [Component.rootDir, Component.normal (chars "dd")]
      (chars ".")).2 = [Component.normal (chars "dd")] ∧
    resolve_root demoFsDD [Component.rootDir, Component.normal (chars "dd")]
      (chars ".") = none := by
  refine ⟨by decide, by decide, by decide, by decide, by decide⟩

end Globmatch

namespace Globmatch

theorem isNormal_ne (c : Component) (h : isNormal c = true) :
    c ≠ Component.curDir ∧ c ≠ Component.rootDir ∧ c ≠ Component.parentDir := by
  cases c <;> simp_all [isNormal]

theorem strComponents_absolute (t : Str) :
    strComponents ('/' :: t) = Component.rootDir :: segComps (splitOnSlash ('/' :: t)) := rfl

theorem isAbsolute_eq_true (s : Str) (h : isAbsolute s = true) : ∃ t, s = '/' :: t := by
  unfold isAbsolute at h
  split at h
  · exact ⟨_, rfl⟩
  · exact Bool.noConfusion h

/-- C1 (amended): for every existing base and non-empty, non-absolute
pattern all of whose components are `Normal` (no leading or inner `../`
or `./`), written in canonical component form, and whose first component
does not name an existing entry under the base, `resolve_root` succeeds
and returns the base unchanged together with the whole pattern as the
remainder. (The un-amended claim fails when leading components do name
existing entries: they are absorbed into the root, see
`C1_counterexample`.) -/
theorem C1_no_absorption (fs : Fs) (base : List Component) (pattern : Str)
    (c : Component) (cs : List Component)
    (hbase : fs.statPath base = true)
    (hcomps : strComponents pattern = c :: cs)
    (hnorm : ∀ x ∈ strComponents pattern, isNormal x = true)
    (hcanon : compsToString (strComponents pattern) = pattern)
    (hfirst : fs.statPath (pushComp base c) = false) :
    resolve_root fs base pattern = some (Except.ok (base, pattern)) := by
  have hne : pattern ≠ [] := by
    intro he
    rw [he] at hcomps
    simp [strComponents] at hcomps
  have habs : isAbsolute pattern = false := by
    by_cases h : isAbsolute pattern = true
    · obtain ⟨t, ht⟩ := isAbsolute_eq_true pattern h
      rw [ht, strComponents_absolute] at hcomps
      have hcr : c = Component.rootDir := ((List.cons.injEq _ _ _ _).mp hcomps).1.symm
      have hmem : c ∈ strComponents pattern := by
        rw [ht, strComponents_absolute, hcomps]
        exact List.mem_cons_self _ _
      have := hnorm c hmem
      rw [hcr] at this
      exact Bool.noConfusion this
    · exact Bool.not_eq_true _ ▸ h
  have hc := isNormal_ne c (hnorm c (by rw [hcomps]; exact List.mem_cons_self _ _))
  have hcs : ∀ x ∈ cs, x ≠ Component.curDir ∧ x ≠ Component.rootDir := by
    intro x hx
    have h := isNormal_ne x (hnorm x (by rw [hcomps]; exact List.mem_cons_of_mem _ hx))
    exact ⟨h.1, h.2.1⟩
  have hfirst2 : fs.statPath (base ++ [c]) = false := by
    rw [← pushComp_eq_append base c hc.1 hc.2.1]
    exact hfirst
  have hstep : absorbLoop fs base [] true (c :: cs) =
      absorbLoop fs (popComp (pushComp base c)) (pushComp [] c) false cs := by
    simp [absorbLoop, hfirst2]
  have hloop : absorbLoop fs base [] true (c :: cs) = (base, c :: cs) := by
    rw [hstep, absorbLoop_false, popComp_pushComp base c hc.1 hc.2.1,
      pushComp_eq_append [] c hc.1 hc.2.1, List.nil_append,
      foldl_pushComp_append cs [c] hcs]
    rfl
  have hparts : resolveParts fs base pattern = (base, c :: cs) := by
    unfold resolveParts
    rw [hcomps, hloop]
    simp
  have hpd : (resolveParts fs base pattern).2.any
      (fun x => decide (x = Component.parentDir)) = false := by
    rw [hparts]
    simp only [List.any_eq_false, decide_eq_true_eq]
    intro x hx
    have h := isNormal_ne x (hnorm x (by rw [hcomps]; exact hx))
    exact h.2.2
  have hstr : compsToString (c :: cs) = pattern := by
    rw [← hcomps]
    exact hcanon
  have hlen : (compsToString (resolveParts fs base pattern).2).length ≤ pattern.length := by
    simp [hparts, hstr]
  rw [resolve_root_success_form fs base pattern hne hbase habs hpd hlen, hparts]
  simp [hstr]

/-- C1 (counterexample): with the base `/d` of the demonstration
filesystem and the pattern `a/b`, whose components are all `Normal` (no
leading relative segments) and which names the existing directory
`/d/a/b`, `resolve_root` succeeds but absorbs `a` into the root: it
returns root `/d/a` and remainder `b`, not the base and the original
pattern as the claim states. -/
theorem C1_counterexample :
    demoFs.statPath demoBase = true ∧
    strComponents (chars "a/b") =
      [Component.normal (chars "a"), Component.normal (chars "b")] ∧
    resolve_root demoFs demoBase (chars "a/b") =
      some (Except.ok ([Component.rootDir, Component.normal (chars "d"),
        Component.normal (chars "a")], chars "b")) ∧
    resolve_root demoFs demoBase (chars "a/b") ≠
      some (Except.ok (demoBase, chars "a/b")) := by
  decide

/-- C1 (witness): the amended theorem applied to the concrete base `/d`
and pattern `*.txt`, which resolves to the base itself and the unchanged
pattern. -/
theorem C1_witness :
    resolve_root demoFs demoBase (chars "*.txt") =
      some (Except.ok (demoBase, chars "*.txt")) :=
  C1_no_absorption demoFs demoBase (chars "*.txt") (Component.normal (chars "*.txt")) []
    (by decide) (by decide) (by decide) (by decide) (by decide)

end Globmatch

namespace Globmatch

theorem getLast?_normal_facts (r : List Component) (n : Str)
    (h : r.getLast? = some (Component.normal n)) :
    r ≠ [] ∧ r ≠ [Component.rootDir] ∧ popComp r = r.dropLast ∧
      r.dropLast ++ [Component.normal n] = r := by
  have h1 : r ≠ [] := by
    intro he
    rw [he] at h
    exact Option.noConfusion h
  have h2 : r ≠ [Component.rootDir] := by
    intro he
    rw [he] at h
    simp at h
  refine ⟨h1, h2, ?_, ?_⟩
  · unfold popComp
    rw [if_neg]
    rintro (he | he)
    · exact h1 he
    · exact h2 he
  · exact List.dropLast_append_getLast? (Component.normal n) (by rw [h]; rfl)

theorem suffix_mem_not_cur (pattern : Str) (pre : List Component) (c : Component)
    (cs' : List Component) (habs : isAbsolute pattern = false)
    (hsplit : strComponents pattern = pre ++ c :: cs')
    (hc : c ≠ Component.curDir) :
    ∀ x ∈ c :: cs', x ≠ Component.curDir ∧ x ≠ Component.rootDir := by
  intro x hx
  constructor
  · rcases List.mem_cons.mp hx with h | h
    · rw [h]
      exact hc
    · intro he
      subst he
      have hmem : Component.curDir ∈ (strComponents pattern).tail := by
        rw [hsplit]
        cases pre with
        | nil => simpa using h
        | cons p ps =>
          rw [List.cons_append, List.tail_cons]
          exact List.mem_append_right ps (List.mem_cons_of_mem c h)
      exact strComponents_tail_no_curDir pattern hmem
  · intro he
    subst he
    exact strComponents_no_rootDir pattern habs
      (by rw [hsplit]; exact List.mem_append_right pre hx)

end Globmatch

namespace Globmatch

theorem resolveParts_loop_rest (fs : Fs) (base : List Component) (pattern : Str)
    (r rest : List Component)
    (hloop : absorbLoop fs base [] true (strComponents pattern) = (r, rest))
    (hne : rest ≠ []) : resolveParts fs base pattern = (r, rest) := by
  unfold resolveParts
  rw [hloop]
  simp [hne]

theorem resolveParts_loop_empty_normal (fs : Fs) (base : List Component) (pattern : Str)
    (r : List Component) (n : Str)
    (hloop : absorbLoop fs base [] true (strComponents pattern) = (r, []))
    (hlast : r.getLast? = some (Component.normal n)) :
    resolveParts fs base pattern = (popComp r, [Component.normal n]) := by
  unfold resolveParts
  rw [hloop]
  simp [hlast]

theorem resolveParts_loop_empty_other (fs : Fs) (base : List Component) (pattern : Str)
    (r : List Component)
    (hloop : absorbLoop fs base [] true (strComponents pattern) = (r, []))
    (hlast : ∀ n, r.getLast? ≠ some (Component.normal n)) :
    resolveParts fs base pattern = (r, []) := by
  unfold resolveParts
  rw [hloop]
  cases hl : r.getLast? with
  | none => simp [hl]
  | some c =>
    cases c with
    | normal n => exact absurd hl (hlast n)
    | rootDir => simp [hl]
    | curDir => simp [hl]
    | parentDir => simp [hl]

/-- C10 (amended): on the success path, when the base resolves to a
traversable directory whenever the pattern's leading component is `.`
(so a leading `.` is absorbed), the component lists maintained by the
resolver conserve the input components up to the dropped `CurDir`: the
resolved root's components followed by the remainder's components equal
the base's components followed by the pattern's components with every
`CurDir` removed. The absorption loop and the pop-back workaround only
move the boundary; an absorbed `.` disappears from the `PathBuf` view
(which the un-amended claim misses, see the first half of
`C10_counterexample`), and without the directory condition a diverted
leading `.` additionally drops the base's last component (second half of
`C10_counterexample`). -/
theorem C10_components_conserved (fs : Fs) (base : List Component) (pattern : Str)
    (hbase : fs.statPath base = true) (habs : isAbsolute pattern = false)
    (hcd : (strComponents pattern).head? = some Component.curDir →
      fs.statPath (base ++ [Component.curDir]) = true) :
    (resolveParts fs base pattern).1 ++ (resolveParts fs base pattern).2 =
      base ++ (strComponents pattern).filter (fun c => decide (c ≠ Component.curDir)) := by
  have hbne : base ≠ [] := statPath_ne_nil fs base hbase
  have hnr : Component.rootDir ∉ strComponents pattern := strComponents_no_rootDir pattern habs
  obtain ⟨pre, suf, hsplit, hne', hstat', hdisj⟩ :=
    absorbLoop_spec fs (strComponents pattern) base hbne hbase hnr
      (strComponents_tail_no_curDir pattern)
  have hprer : ∀ x ∈ pre, x ≠ Component.rootDir := by
    intro x hx he
    subst he
    exact hnr (by rw [hsplit]; exact List.mem_append_left suf hx)
  have hroot : List.foldl pushComp base pre =
      base ++ pre.filter (fun c => decide (c ≠ Component.curDir)) :=
    foldl_pushComp_filter pre base hbne hprer
  rcases hdisj with ⟨hsuf, hloop⟩ | ⟨c, cs', hcc, hfail, hloop, hcur⟩
  · subst hsuf
    have hpre : pre = strComponents pattern := by simpa using hsplit.symm
    cases hlast : (List.foldl pushComp base pre).getLast? with
    | none =>
      rw [resolveParts_loop_empty_other fs base pattern _ hloop
        (fun n h => by rw [hlast] at h; exact Option.noConfusion h)]
      rw [hroot, hpre]
      simp
    | some c =>
      cases c with
      | normal n =>
        obtain ⟨_, _, hpop, happ⟩ :=
          getLast?_normal_facts (List.foldl pushComp base pre) n hlast
        rw [resolveParts_loop_empty_normal fs base pattern _ n hloop hlast]
        show popComp (List.foldl pushComp base pre) ++ [Component.normal n] = _
        rw [hpop, happ, hroot, hpre]
      | rootDir =>
        rw [resolveParts_loop_empty_other fs base pattern _ hloop
          (fun n h => by rw [hlast] at h; simp at h)]
        rw [hroot, hpre]
        simp
      | curDir =>
        rw [resolveParts_loop_empty_other fs base pattern _ hloop
          (fun n h => by rw [hlast] at h; simp at h)]
        rw [hroot, hpre]
        simp
      | parentDir =>
        rw [resolveParts_loop_empty_other fs base pattern _ hloop
          (fun n h => by rw [hlast] at h; simp at h)]
        rw [hroot, hpre]
        simp
  · subst hcc
    by_cases hcq : c = Component.curDir
    · exfalso
      subst hcq
      have hpre0 : pre = [] := hcur rfl
      subst hpre0
      have hhd : (strComponents pattern).head? = some Component.curDir := by
        rw [hsplit]
        rfl
      have ht := hcd hhd
      rw [show List.foldl pushComp base [] = base from rfl] at hfail
      rw [hfail] at ht
      exact Bool.noConfusion ht
    · have hsufmem := suffix_mem_not_cur pattern pre c cs' habs hsplit hcq
      have hsufeq : List.foldl pushComp [] (c :: cs') = c :: cs' := by
        rw [foldl_pushComp_append (c :: cs') [] hsufmem]
        rfl
      have hpop : popComp (pushComp (List.foldl pushComp base pre) c) =
          List.foldl pushComp base pre :=
        popComp_pushComp _ c hcq (hsufmem c (List.mem_cons_self _ _)).2
      rw [hsufeq, hpop] at hloop
      rw [resolveParts_loop_rest fs base pattern _ _ hloop (by simp)]
      show List.foldl pushComp base pre ++ c :: cs' = _
      rw [hroot, hsplit, List.filter_append, List.append_assoc]
      congr 1
      congr 1
      have : ∀ x ∈ c :: cs', decide (x ≠ Component.curDir) = true := by
        intro x hx
        have := (hsufmem x hx).1
        simpa using this
      rw [List.filter_eq_self.mpr this]

/-- C10 (counterexample): for base `/d` and the canonical pattern `./a`
(components `CurDir, Normal a`), resolution succeeds with root `/d` and
remainder `a`, but the root components followed by the remainder
components lack the `CurDir` component of the pattern: the claimed
conservation equation fails because an absorbed `.` disappears from the
root. Moreover, for the file base `/d/f` and pattern `./x`,
`exists("/d/f/.")` is false, the `.` is diverted and the undoing `pop`
drops the base component `f`, so even the `CurDir`-filtered conservation
fails there. -/
theorem C10_counterexample :
    (resolve_root demoFs demoBase (chars "./a") = some (Except.ok (demoBase, chars "a")) ∧
      demoBase ++ strComponents (chars "a") ≠ demoBase ++ strComponents (chars "./a")) ∧
    (resolve_root demoFsF
        [Component.rootDir, Component.normal (chars "d"), Component.normal (chars "f")]
        (chars "./x") =
      some (Except.ok ([Component.rootDir, Component.normal (chars "d")], chars "./x")) ∧
      (resolveParts demoFsF
          [Component.rootDir, Component.normal (chars "d"), Component.normal (chars "f")]
          (chars "./x")).1 ++
        (resolveParts demoFsF
          [Component.rootDir, Component.normal (chars "d"), Component.normal (chars "f")]
          (chars "./x")).2 ≠
      [Component.rootDir, Component.normal (chars "d"), Component.normal (chars "f")] ++
        (strComponents (chars "./x")).filter (fun c => decide (c ≠ Component.curDir))) := by
  decide

/-- C10 (witness): the amended conservation equation evaluated for base
`/d` (a directory) and pattern `./a`. -/
theorem C10_witness :
    (resolveParts demoFs demoBase (chars "./a")).1 ++
        (resolveParts demoFs demoBase (chars "./a")).2 =
      demoBase ++ (strComponents (chars "./a")).filter
        (fun c => decide (c ≠ Component.curDir)) :=
  C10_components_conserved demoFs demoBase (chars "./a") (by decide) (by decide)
    (fun _ => by decide)

end Globmatch

namespace Globmatch

/-- C2 (amended): whenever `resolve_root` succeeds with `(root, rest)`,
`rest` is a trailing slice of the original pattern whose character length
equals the length of the stringified remainder path (so the caller's
original separators and escaping are preserved verbatim); and provided the
pattern is written in canonical component form and the absorption loop did
not consume the whole pattern, the slice covers exactly the unabsorbed
components: it equals the stringified remainder and those components are a
suffix of the pattern's components. (Without canonicity the slice's
length arithmetic picks up stray separator characters and no longer
re-parses to the unabsorbed components, see `C2_counterexample`.) -/
theorem C2_remainder_slice (fs : Fs) (base : List Component) (pattern : Str)
    (root : List Component) (rest : Str)
    (hok : resolve_root fs base pattern = some (Except.ok (root, rest))) :
    ((∃ preS : Str, pattern = preS ++ rest) ∧
      rest.length = (compsToString (resolveParts fs base pattern).2).length) ∧
    (compsToString (strComponents pattern) = pattern →
      (absorbLoop fs base [] true (strComponents pattern)).2 ≠ [] →
      (∃ preC, strComponents pattern = preC ++ (resolveParts fs base pattern).2) ∧
      rest = compsToString (resolveParts fs base pattern).2) := by
  obtain ⟨hne, hbase, habs, hpd, hlen, hroot, hrest⟩ :=
    resolve_root_ok_elim fs base pattern root rest hok
  constructor
  · constructor
    · exact ⟨pattern.take (pattern.length - (compsToString (resolveParts fs base pattern).2).length),
        by rw [hrest]; exact (List.take_append_drop _ pattern).symm⟩
    · rw [hrest, List.length_drop]
      omega
  · intro hcanon hlne
    have hbne : base ≠ [] := statPath_ne_nil fs base hbase
    have hnr : Component.rootDir ∉ strComponents pattern := strComponents_no_rootDir pattern habs
    obtain ⟨pre, suf, hsplit, hne', hstat', hdisj⟩ :=
      absorbLoop_spec fs (strComponents pattern) base hbne hbase hnr
        (strComponents_tail_no_curDir pattern)
    rcases hdisj with ⟨hsuf, hloop⟩ | ⟨c, cs', hcc, hfail, hloop, hcur⟩
    · rw [hloop] at hlne
      simp at hlne
    · subst hcc
      by_cases hcq : c = Component.curDir
      · subst hcq
        have hpre0 : pre = [] := hcur rfl
        subst hpre0
        have hcsmem : ∀ x ∈ cs', x ≠ Component.curDir ∧ x ≠ Component.rootDir := by
          intro x hx
          constructor
          · intro he
            subst he
            exact strComponents_tail_no_curDir pattern (by rw [hsplit]; simpa using hx)
          · intro he
            subst he
            exact hnr (by rw [hsplit]; simp [hx])
        have hsufeq : List.foldl pushComp [] (Component.curDir :: cs') =
            Component.curDir :: cs' := by
          rw [List.foldl_cons, show pushComp [] Component.curDir = [Component.curDir] from by
            simp [pushComp], foldl_pushComp_append cs' [Component.curDir] hcsmem]
          rfl
        rw [hsufeq] at hloop
        have hparts := resolveParts_loop_rest fs base pattern _ _ hloop (by simp)
        refine ⟨⟨[], by rw [hparts]; simpa using hsplit⟩, ?_⟩
        have hpat : pattern = compsToString (Component.curDir :: cs') := by
          rw [← hcanon]
          congr 1
        rw [hrest, hparts]
        show List.drop (pattern.length - (compsToString (Component.curDir :: cs')).length)
          pattern = compsToString (Component.curDir :: cs')
        rw [← hpat, Nat.sub_self, List.drop_zero]
      · have hsufmem := suffix_mem_not_cur pattern pre c cs' habs hsplit hcq
        have hsufeq : List.foldl pushComp [] (c :: cs') = c :: cs' := by
          rw [foldl_pushComp_append (c :: cs') [] hsufmem]
          rfl
        rw [hsufeq] at hloop
        have hparts := resolveParts_loop_rest fs base pattern _ _ hloop (by simp)
        refine ⟨⟨pre, by rw [hparts]; exact hsplit⟩, ?_⟩
        rw [hrest, hparts]
        show List.drop (pattern.length - (compsToString (c :: cs')).length) pattern =
          compsToString (c :: cs')
        cases pre with
        | nil =>
          have hpat : pattern = compsToString (c :: cs') := by
            rw [← hcanon, hsplit]
            rfl
          rw [← hpat, Nat.sub_self, List.drop_zero]
        | cons p ps =>
          have hpat : pattern = compsToString (p :: ps) ++ '/' :: compsToString (c :: cs') := by
            rw [← hcanon, hsplit, compsToString_append (p :: ps) (c :: cs') (by simp) (by simp)]
          have hk : pattern.length - (compsToString (c :: cs')).length =
              (compsToString (p :: ps) ++ ['/']).length := by
            rw [hpat]
            simp [List.length_append]
            omega
          rw [hk, hpat, show compsToString (p :: ps) ++ '/' :: compsToString (c :: cs') =
            (compsToString (p :: ps) ++ ['/']) ++ compsToString (c :: cs') from by simp,
            List.drop_left]

/-- C2 (counterexample): for base `/` and the non-canonical pattern
`a//b` (doubled separator), the absorption loop absorbs nothing, the
unabsorbed components are `a, b`, but the returned remainder slice is
`//b`: it is not the stringified remainder `a/b`, and it re-parses to the
components `RootDir, b` rather than covering exactly the unabsorbed
components. -/
theorem C2_counterexample :
    resolve_root demoFs [Component.rootDir] (chars "a//b") =
      some (Except.ok ([Component.rootDir], chars "//b")) ∧
    (resolveParts demoFs [Component.rootDir] (chars "a//b")).2 =
      [Component.normal (chars "a"), Component.normal (chars "b")] ∧
    strComponents (chars "//b") ≠
      (resolveParts demoFs [Component.rootDir] (chars "a//b")).2 ∧
    chars "//b" ≠ compsToString (resolveParts demoFs [Component.rootDir] (chars "a//b")).2 := by
  decide

/-- C2 (witness): the amended theorem applied to base `/` and the
canonical pattern `a/b`: the remainder is a trailing slice of the pattern
of the stringified remainder's length, and it equals the stringified
unabsorbed components. -/
theorem C2_witness :
    ((∃ preS : Str, chars "a/b" = preS ++ chars "a/b") ∧
      (chars "a/b").length =
        (compsToString (resolveParts demoFs [Component.rootDir] (chars "a/b")).2).length) ∧
    chars "a/b" = compsToString (resolveParts demoFs [Component.rootDir] (chars "a/b")).2 :=
  have h := C2_remainder_slice demoFs [Component.rootDir] (chars "a/b") [Component.rootDir]
    (chars "a/b") (by decide)
  ⟨h.1, (h.2 (by decide) (by decide)).2⟩

end Globmatch

namespace Globmatch

theorem normal_mem_strComponents (s : Str) (n : Str)
    (h : Component.normal n ∈ strComponents s) :
    n ≠ [] ∧ n ≠ ['.'] ∧ n ≠ ['.', '.'] := by
  have hseg : ∀ segs, Component.normal n ∈ segComps segs →
      n ≠ [] ∧ n ≠ ['.'] ∧ n ≠ ['.', '.'] := by
    intro segs hm
    rcases mem_segComps segs _ hm with h' | ⟨m, hm2, h1, h2, h3⟩
    · exact Component.noConfusion h'
    · have : n = m := by injection hm2
      rw [this]
      exact ⟨h1, h2, h3⟩
  revert h
  unfold strComponents
  split
  · simp
  · intro h
    rcases List.mem_cons.mp h with h | h
    · exact Component.noConfusion h
    · exact hseg _ h
  · split
    · simp
    · split
      · intro h
        rcases List.mem_cons.mp h with h | h
        · exact Component.noConfusion h
        · exact hseg _ h
      · intro h
        exact hseg _ h

/-- C3 (amended): when the absorption loop consumes every component of the
pattern into the root (each intermediate path exists), the workaround pops
one trailing component of the root back into the remainder exactly when
that component is `Normal`. For a canonical pattern whose last component
is `Normal n`, the returned remainder is that single component `n` (and it
is non-empty); when the root's last component is not `Normal`, the
returned remainder is the empty string. (For a non-canonical pattern such
as one with a trailing separator the returned remainder is a slice of
stray separator characters rather than the popped component, see
`C3_counterexample`.) -/
theorem C3_workaround (fs : Fs) (base : List Component) (pattern : Str) (r : List Component)
    (hne : pattern ≠ []) (hbase : fs.statPath base = true) (habs : isAbsolute pattern = false)
    (hloop : absorbLoop fs base [] true (strComponents pattern) = (r, [])) :
    (∀ n, compsToString (strComponents pattern) = pattern →
      (strComponents pattern).getLast? = some (Component.normal n) →
      resolve_root fs base pattern = some (Except.ok (popComp r, n)) ∧ n ≠ []) ∧
    ((∀ n, r.getLast? ≠ some (Component.normal n)) →
      resolve_root fs base pattern = some (Except.ok (r, []))) := by
  constructor
  · intro n hcanon hplast
    obtain ⟨hcne, _, _, hcapp⟩ := getLast?_normal_facts (strComponents pattern) n hplast
    have hr : r = List.foldl pushComp base (strComponents pattern) :=
      (absorbLoop_absorbed fs (strComponents pattern) base r hloop).1
    have hrlast : r.getLast? = some (Component.normal n) := by
      rw [hr, ← hcapp, List.foldl_append, List.foldl_cons, List.foldl_nil,
        pushComp_eq_append _ _ (by simp) (by simp)]
      exact List.getLast?_concat _
    have hparts := resolveParts_loop_empty_normal fs base pattern r n hloop hrlast
    have hpd : (resolveParts fs base pattern).2.any
        (fun c => decide (c = Component.parentDir)) = false := by
      rw [hparts]
      simp
    have hnn := normal_mem_strComponents pattern n
      (by rw [← hcapp]; exact List.mem_append_right _ (List.mem_cons_self _ _))
    refine ⟨?_, hnn.1⟩
    have hstr : compsToString [Component.normal n] = n := rfl
    cases hdl : (strComponents pattern).dropLast with
    | nil =>
      have hpat : pattern = n := by
        rw [← hcanon, ← hcapp, hdl]
        rfl
      have hlen : (compsToString (resolveParts fs base pattern).2).length ≤ pattern.length := by
        rw [hparts]
        show (compsToString [Component.normal n]).length ≤ pattern.length
        exact le_of_eq (by rw [hstr, hpat])
      rw [resolve_root_success_form fs base pattern hne hbase habs hpd hlen, hparts]
      show some (Except.ok (popComp r,
        List.drop (pattern.length - (compsToString [Component.normal n]).length) pattern)) = _
      rw [hstr, hpat, Nat.sub_self, List.drop_zero]
    | cons p ps =>
      have hpat : pattern = compsToString (p :: ps) ++ '/' :: n := by
        rw [← hcanon, ← hcapp, hdl,
          compsToString_append (p :: ps) [Component.normal n] (by simp) (by simp), hstr]
      have hlen : (compsToString (resolveParts fs base pattern).2).length ≤ pattern.length := by
        rw [hparts]
        show (compsToString [Component.normal n]).length ≤ pattern.length
        rw [hstr, hpat]
        simp only [List.length_append, List.length_cons]
        omega
      have hk : pattern.length - n.length = (compsToString (p :: ps) ++ ['/']).length := by
        rw [hpat]
        simp [List.length_append]
        omega
      rw [resolve_root_success_form fs base pattern hne hbase habs hpd hlen, hparts]
      show some (Except.ok (popComp r,
        List.drop (pattern.length - (compsToString [Component.normal n]).length) pattern)) = _
      rw [hstr, hk, hpat, show compsToString (p :: ps) ++ '/' :: n =
        (compsToString (p :: ps) ++ ['/']) ++ n from by simp, List.drop_left]
  · intro hnot
    have hparts := resolveParts_loop_empty_other fs base pattern r hloop hnot
    have hpd : (resolveParts fs base pattern).2.any
        (fun c => decide (c = Component.parentDir)) = false := by
      rw [hparts]
      simp
    have hlen : (compsToString (resolveParts fs base pattern).2).length ≤ pattern.length := by
      rw [hparts]
      show (compsToString ([] : List Component)).length ≤ pattern.length
      simp [compsToString]
    rw [resolve_root_success_form fs base pattern hne hbase habs hpd hlen, hparts]
    show some (Except.ok (r,
      List.drop (pattern.length - (compsToString ([] : List Component)).length) pattern)) = _
    show some (Except.ok (r, List.drop (pattern.length - 0) pattern)) = _
    rw [Nat.sub_zero, List.drop_length]

/-- C3 (counterexample): with base `/d` and the pattern `a/` (trailing
separator), the absorption loop consumes the single component `a` (the
directory `/d/a` exists) and the workaround pops the `Normal` component
`a` back, but the returned remainder is the slice `/`, not the popped
component `a` as the claim states. -/
theorem C3_counterexample :
    absorbLoop demoFs demoBase [] true (strComponents (chars "a/")) =
      ([Component.rootDir, Component.normal (chars "d"), Component.normal (chars "a")], []) ∧
    resolve_root demoFs demoBase (chars "a/") = some (Except.ok (demoBase, chars "/")) ∧
    resolve_root demoFs demoBase (chars "a/") ≠ some (Except.ok (demoBase, chars "a")) := by
  decide

/-- C3 (witness): the amended theorem applied to base `/d` and the
canonical, fully absorbed pattern `a`: the remainder is the popped
component `a` and the root is popped back to `/d`; and applied to base `/`
with pattern `..`, whose fully absorbed root ends in a non-`Normal`
component, so the remainder is returned empty. -/
theorem C3_witness :
    (resolve_root demoFs demoBase (chars "a") = some (Except.ok (demoBase, chars "a")) ∧
      chars "a" ≠ []) ∧
    resolve_root demoFs [Component.rootDir] (chars "..") =
      some (Except.ok ([Component.rootDir, Component.parentDir], [])) := by
  constructor
  · have h := (C3_workaround demoFs demoBase (chars "a")
      [Component.rootDir, Component.normal (chars "d"), Component.normal (chars "a")]
      (by decide) (by decide) (by decide) (by decide)).1 (chars "a") (by decide) (by decide)
    exact ⟨by rw [h.1]; decide, h.2⟩
  · exact (C3_workaround demoFs [Component.rootDir] (chars "..")
      [Component.rootDir, Component.parentDir]
      (by decide) (by decide) (by decide) (by decide)).2 (fun n h => by simp at h)

end Globmatch

namespace Globmatch

/-- C6 (amended): `resolve_root` is a fixpoint on its own successful
output whenever the returned remainder is non-empty, non-absolute, in
canonical component form re-parsing to exactly the component list the
resolution left behind, does not start with a `.` component, and the
returned root is non-empty: resolving `(root', remainder)` again returns
`(root', remainder)` unchanged. (The un-amended claim fails in two ways:
the remainder can be returned empty, which the second call rejects as an
empty pattern, and a remainder starting with `./` left by a file base is
re-resolved differently once the returned root is a directory; see
`C6_counterexample` for both.) -/
theorem C6_idempotent (fs : Fs) (base : List Component) (pattern : Str)
    (root' : List Component) (rem : Str)
    (hok : resolve_root fs base pattern = some (Except.ok (root', rem)))
    (hne : rem ≠ [])
    (hrabs : isAbsolute rem = false)
    (hcanon : compsToString (strComponents rem) = rem)
    (hre : strComponents rem = (resolveParts fs base pattern).2)
    (hhead : (strComponents rem).head? ≠ some Component.curDir)
    (hrne : root' ≠ []) :
    resolve_root fs root' rem = some (Except.ok (root', rem)) := by
  obtain ⟨hpne, hbase, habs, hpd, _, hr, _⟩ :=
    resolve_root_ok_elim fs base pattern root' rem hok
  have hbne : base ≠ [] := statPath_ne_nil fs base hbase
  have hnr : Component.rootDir ∉ strComponents pattern := strComponents_no_rootDir pattern habs
  obtain ⟨pre, suf, hsplit, hne', hstat', hdisj⟩ :=
    absorbLoop_spec fs (strComponents pattern) base hbne hbase hnr
      (strComponents_tail_no_curDir pattern)
  rcases hdisj with ⟨hsuf, hloop⟩ | ⟨c, cs', hcc, hfail, hloop, hcur⟩
  · -- the loop absorbed everything; the workaround must have popped a
    -- Normal component, else the remainder components would be empty
    subst hsuf
    have hcompsne : strComponents rem ≠ [] := by
      intro h0
      rw [h0] at hcanon
      exact hne hcanon.symm
    cases hl : (List.foldl pushComp base pre).getLast? with
    | none =>
      rw [resolveParts_loop_empty_other fs base pattern _ hloop
        (fun n h => by rw [hl] at h; exact Option.noConfusion h)] at hre
      exact absurd hre hcompsne
    | some c =>
      cases c with
      | rootDir =>
        rw [resolveParts_loop_empty_other fs base pattern _ hloop
          (fun n h => by rw [hl] at h; simp at h)] at hre
        exact absurd hre hcompsne
      | curDir =>
        rw [resolveParts_loop_empty_other fs base pattern _ hloop
          (fun n h => by rw [hl] at h; simp at h)] at hre
        exact absurd hre hcompsne
      | parentDir =>
        rw [resolveParts_loop_empty_other fs base pattern _ hloop
          (fun n h => by rw [hl] at h; simp at h)] at hre
        exact absurd hre hcompsne
      | normal n =>
        have hparts := resolveParts_loop_empty_normal fs base pattern _ n hloop hl
        rw [hparts] at hre hr
        dsimp only at hre hr
        obtain ⟨hr0ne, _, hpop, happ⟩ := getLast?_normal_facts (List.foldl pushComp base pre) n hl
        rw [hpop] at hr
        have hremn : rem = n := by
          rw [← hcanon, hre]
          rfl
        have hrstat : fs.statPath root' = true := by
          rw [hr]
          exact statPath_pop_normal fs (List.foldl pushComp base pre) n hstat' hl (hr ▸ hrne)
        have happend : root' ++ [Component.normal n] = List.foldl pushComp base pre := by
          rw [hr, happ]
        have hloop2 : absorbLoop fs root' [] true (strComponents rem) =
            (List.foldl pushComp base pre, []) := by
          rw [hre]
          have hg : fs.statPath (root' ++ [Component.normal n]) = true := by
            rw [happend]
            exact hstat'
          have hpush : pushComp root' (Component.normal n) = List.foldl pushComp base pre := by
            rw [pushComp_eq_append _ _ (by simp) (by simp), happend]
          show absorbLoop fs root' [] true [Component.normal n] = _
          simp only [absorbLoop, hg, if_true, hpush]
        have hparts2 := resolveParts_loop_empty_normal fs root' rem _ n hloop2 hl
        have hpd2 : (resolveParts fs root' rem).2.any
            (fun c => decide (c = Component.parentDir)) = false := by
          rw [hparts2]
          simp
        have hlen2 : (compsToString (resolveParts fs root' rem).2).length ≤ rem.length := by
          rw [hparts2]
          show (compsToString [Component.normal n]).length ≤ rem.length
          exact le_of_eq (by rw [hremn]; rfl)
        rw [resolve_root_success_form fs root' rem hne hrstat hrabs hpd2 hlen2, hparts2, hpop,
          ← hr]
        show some (Except.ok (root',
          List.drop (rem.length - (compsToString [Component.normal n]).length) rem)) = _
        have hstr : compsToString [Component.normal n] = n := rfl
        rw [hstr, hremn, Nat.sub_self, List.drop_zero]
  · -- the loop stopped at a component that does not exist under the root
    subst hcc
    by_cases hcq : c = Component.curDir
    · -- excluded by the hypothesis: the remainder would start with `.`
      exfalso
      subst hcq
      have hpre0 : pre = [] := hcur rfl
      subst hpre0
      have hcsmem : ∀ x ∈ cs', x ≠ Component.curDir ∧ x ≠ Component.rootDir := by
        intro x hx
        constructor
        · intro he
          subst he
          exact strComponents_tail_no_curDir pattern (by rw [hsplit]; simpa using hx)
        · intro he
          subst he
          exact hnr (by rw [hsplit]; simp [hx])
      have hsufeq : List.foldl pushComp [] (Component.curDir :: cs') =
          Component.curDir :: cs' := by
        rw [List.foldl_cons, show pushComp [] Component.curDir = [Component.curDir] from by
          simp [pushComp], foldl_pushComp_append cs' [Component.curDir] hcsmem]
        rfl
      rw [hsufeq] at hloop
      have hparts := resolveParts_loop_rest fs base pattern _ _ hloop (by simp)
      rw [hparts] at hre
      dsimp only at hre
      exact hhead (by rw [hre]; rfl)
    · -- the same push fails again on the second call
      have hsufmem := suffix_mem_not_cur pattern pre c cs' habs hsplit hcq
      have hsufeq : List.foldl pushComp [] (c :: cs') = c :: cs' := by
        rw [foldl_pushComp_append (c :: cs') [] hsufmem]
        rfl
      have hpop : popComp (pushComp (List.foldl pushComp base pre) c) =
          List.foldl pushComp base pre :=
        popComp_pushComp _ c hcq (hsufmem c (List.mem_cons_self _ _)).2
      rw [hsufeq, hpop] at hloop
      have hparts := resolveParts_loop_rest fs base pattern _ _ hloop (by simp)
      rw [hparts] at hre hr
      dsimp only at hre hr
      have hfail2 : fs.statPath (root' ++ [c]) = false := by
        rw [hr]
        exact hfail
      have hstep : absorbLoop fs root' [] true (c :: cs') =
          absorbLoop fs (popComp (pushComp root' c)) (pushComp [] c) false cs' := by
        simp [absorbLoop, hfail2]
      have hloop2 : absorbLoop fs root' [] true (strComponents rem) = (root', c :: cs') := by
        rw [hre, hstep, absorbLoop_false,
          popComp_pushComp root' c hcq (hsufmem c (List.mem_cons_self _ _)).2,
          pushComp_eq_append [] c hcq (hsufmem c (List.mem_cons_self _ _)).2, List.nil_append,
          foldl_pushComp_append cs' [c] (fun x hx => hsufmem x (List.mem_cons_of_mem c hx))]
        rfl
      have hparts2 := resolveParts_loop_rest fs root' rem _ _ hloop2 (by simp)
      have hpd2 : (resolveParts fs root' rem).2.any
          (fun x => decide (x = Component.parentDir)) = false := by
        rw [hparts2]
        rw [hparts] at hpd
        dsimp only at hpd ⊢
        exact hpd
      have hrem2 : compsToString (c :: cs') = rem := by
        rw [← hre]
        exact hcanon
      have hlen2 : (compsToString (resolveParts fs root' rem).2).length ≤ rem.length := by
        rw [hparts2]
        show (compsToString (c :: cs')).length ≤ rem.length
        exact le_of_eq (by rw [hrem2])
      rw [resolve_root_success_form fs root' rem hne (hr ▸ hstat') hrabs hpd2 hlen2, hparts2]
      show some (Except.ok (root',
        List.drop (rem.length - (compsToString (c :: cs')).length) rem)) = _
      rw [hrem2, Nat.sub_self, List.drop_zero]

/-- C6 (counterexample): with base `/` and pattern `..`, the first call
succeeds and returns root `/..` with an empty remainder (the fully
absorbed root ends in `ParentDir`, so nothing is popped back); resolving
the returned pair again fails with `InvalidInput` because the empty
remainder is an empty pattern. Moreover, with the file base `/d/f` and
pattern `./x`, the first call succeeds with `(/d, "./x")` (the `.` is
diverted because the base is a file, and the undoing pop drops `f`), but
resolving `(/d, "./x")` again absorbs the `.` (now the base is a
directory) and returns the different remainder `x`. So `resolve_root` is
not idempotent on its own successful output. -/
theorem C6_counterexample :
    (resolve_root demoFs [Component.rootDir] (chars "..") =
      some (Except.ok ([Component.rootDir, Component.parentDir], [])) ∧
    resolve_root demoFs [Component.rootDir, Component.parentDir] [] =
      some (Except.error RootError.invalidInput)) ∧
    (resolve_root demoFsF
        [Component.rootDir, Component.normal (chars "d"), Component.normal (chars "f")]
        (chars "./x") =
      some (Except.ok ([Component.rootDir, Component.normal (chars "d")], chars "./x")) ∧
    resolve_root demoFsF [Component.rootDir, Component.normal (chars "d")] (chars "./x") =
      some (Except.ok ([Component.rootDir, Component.normal (chars "d")], chars "x"))) := by
  decide

/-- C6 (witness): the amended theorem applied to the output of resolving
pattern `a/*.txt` against base `/d`: the first call returns
`(/d/a, *.txt)`, and resolving that pair again returns it unchanged. -/
theorem C6_witness :
    resolve_root demoFs
      [Component.rootDir, Component.normal (chars "d"), Component.normal (chars "a")]
      (chars "*.txt") =
      some (Except.ok ([Component.rootDir, Component.normal (chars "d"),
        Component.normal (chars "a")], chars "*.txt")) :=
  C6_idempotent demoFs demoBase (chars "a/*.txt")
    [Component.rootDir, Component.normal (chars "d"), Component.normal (chars "a")]
    (chars "*.txt") (by decide) (by decide) (by decide) (by decide) (by decide) (by decide)
    (by decide)

end Globmatch

namespace Globmatch

theorem statFrom_names (fs : Fs) (names : List Str) :
    ∀ (acc : List Str) (tailC : List Component),
    (∀ i, i ≤ names.length → fs.isDir (acc ++ names.take i) = true) →
    fs.statFrom acc (names.map Component.normal ++ tailC) =
      fs.statFrom (acc ++ names) tailC := by
  induction names with
  | nil => intro acc tailC _; simp
  | cons n ns ih =>
    intro acc tailC h
    have h0 : fs.isDir acc = true := by simpa using h 0 (by omega)
    have hstep : fs.statFrom acc (Component.normal n :: (ns.map Component.normal ++ tailC)) =
        (fs.isDir acc && fs.statFrom (acc ++ [n]) (ns.map Component.normal ++ tailC)) := rfl
    rw [List.map_cons, List.cons_append, hstep, h0, Bool.true_and,
      ih (acc ++ [n]) tailC (fun i hi => by
        have hh := h (i + 1) (by simpa using hi)
        rw [List.take_succ_cons, List.append_cons] at hh
        exact hh),
      ← List.append_cons]

theorem statFrom_updirs (fs : Fs) (full : List Str)
    (hdirs : ∀ i, i ≤ full.length → fs.isDir (full.take i) = true) :
    ∀ (j i : Nat) (tailC : List Component), i ≤ full.length →
    fs.statFrom (full.take i) (List.replicate j Component.parentDir ++ tailC) =
      fs.statFrom (full.take (i - j)) tailC := by
  intro j
  induction j with
  | zero => intro i tailC _; simp
  | succ j ih =>
    intro i tailC hi
    rw [List.replicate_succ, List.cons_append]
    have hstep : fs.statFrom (full.take i)
        (Component.parentDir :: (List.replicate j Component.parentDir ++ tailC)) =
        (fs.isDir (full.take i) &&
          fs.statFrom (full.take i).dropLast (List.replicate j Component.parentDir ++ tailC)) :=
      rfl
    have hdl : (full.take i).dropLast = full.take (i - 1) := by
      rw [List.dropLast_eq_take, List.take_take, List.length_take]
      congr 1
      omega
    rw [hstep, hdirs i hi, Bool.true_and, hdl, ih (i - 1) tailC (by omega)]
    congr 2
    omega

theorem canonAcc_names (names : List Str) :
    ∀ (acc : List Str) (tailC : List Component),
    canonAcc acc (names.map Component.normal ++ tailC) = canonAcc (acc ++ names) tailC := by
  induction names with
  | nil => intro acc tailC; simp
  | cons n ns ih =>
    intro acc tailC
    rw [List.map_cons, List.cons_append,
      show canonAcc acc (Component.normal n :: (ns.map Component.normal ++ tailC)) =
        canonAcc (acc ++ [n]) (ns.map Component.normal ++ tailC) from rfl,
      ih (acc ++ [n]) tailC, ← List.append_cons]

theorem canonAcc_updirs : ∀ (j : Nat) (acc : List Str), acc.length ≤ j →
    canonAcc acc (List.replicate j Component.parentDir) = [] := by
  intro j
  induction j with
  | zero =>
    intro acc h
    have : acc = [] := List.length_eq_zero.mp (by omega)
    rw [this]
    rfl
  | succ j ih =>
    intro acc h
    rw [List.replicate_succ,
      show canonAcc acc (Component.parentDir :: List.replicate j Component.parentDir) =
        canonAcc acc.dropLast (List.replicate j Component.parentDir) from rfl,
      ih acc.dropLast (by rw [List.length_dropLast]; omega)]

theorem absorbLoop_all (fs : Fs) (cs : List Component) :
    ∀ root, (∀ cs₁ c cs₂, cs = cs₁ ++ c :: cs₂ →
      fs.statPath (List.foldl pushComp root cs₁ ++ [c]) = true) →
    absorbLoop fs root [] true cs = (List.foldl pushComp root cs, []) := by
  induction cs with
  | nil => intro root _; rfl
  | cons c cs ih =>
    intro root h
    have hc : fs.statPath (root ++ [c]) = true := by
      have := h [] c cs rfl
      simpa using this
    rw [show absorbLoop fs root [] true (c :: cs) =
      absorbLoop fs (pushComp root c) [] true cs from by simp [absorbLoop, hc]]
    rw [ih (pushComp root c) (fun cs₁ c' cs₂ hsp => by
      have hh := h (c :: cs₁) c' cs₂ (by rw [hsp]; rfl)
      rw [List.foldl_cons] at hh
      exact hh)]
    rw [List.foldl_cons]

end Globmatch

namespace Globmatch

/-- C5 (amended): for an existing absolute base directory whose prefixes
are all directories and a pattern of `k` leading `../` components
outnumbering the base's depth, followed by a normal glob component `g`
that does not exist at the filesystem root, `resolve_root` succeeds
without error and returns the remainder `g` together with the
uncanonicalized root `base ++ ..×k`, whose lexical resolution is the
filesystem root `/`. (The function does not canonicalize, so the
returned root is not the literal `/` of the un-amended claim: see
`C5_counterexample`.) -/
theorem C5_overlong_updirs (fs : Fs) (names : List Str) (k : Nat) (g : Str) (pattern : Str)
    (hdirs : ∀ i, i ≤ names.length → fs.isDir (names.take i) = true)
    (hk : names.length < k)
    (hparse : strComponents pattern =
      List.replicate k Component.parentDir ++ [Component.normal g])
    (hsuf : ∃ preS : Str, pattern = preS ++ g)
    (hg : fs.exists_ [g] = false)
    (hne : pattern ≠ []) (habs : isAbsolute pattern = false) :
    resolve_root fs (Component.rootDir :: names.map Component.normal) pattern =
      some (Except.ok (Component.rootDir :: names.map Component.normal ++
        List.replicate k Component.parentDir, g)) ∧
    canonAcc [] (Component.rootDir :: names.map Component.normal ++
      List.replicate k Component.parentDir) = [] := by
  -- existence of the base extended by j parent components, for any j
  have hstat : ∀ j, fs.statPath (Component.rootDir ::
      (names.map Component.normal ++ List.replicate j Component.parentDir)) = true := by
    intro j
    show fs.statFrom [] (names.map Component.normal ++ List.replicate j Component.parentDir) = true
    rw [statFrom_names fs names [] (List.replicate j Component.parentDir)
      (fun i hi => by simpa using hdirs i hi), List.nil_append]
    have h1 : names = names.take names.length := (List.take_length names).symm
    rw [show List.replicate j Component.parentDir =
      List.replicate j Component.parentDir ++ [] from by simp]
    calc fs.statFrom names (List.replicate j Component.parentDir ++ [])
        = fs.statFrom (names.take names.length)
            (List.replicate j Component.parentDir ++ []) := by rw [← h1]
      _ = fs.statFrom (names.take (names.length - j)) [] :=
          statFrom_updirs fs names hdirs j names.length [] (le_refl _)
      _ = fs.exists_ (names.take (names.length - j)) := rfl
      _ = true := fs.exists_of_isDir _ (hdirs (names.length - j) (by omega))
  have hbase : fs.statPath (Component.rootDir :: names.map Component.normal) = true := by
    have h0 := hstat 0
    simpa using h0
  -- every tentative push of a ParentDir component succeeds
  have hloop1 : absorbLoop fs (Component.rootDir :: names.map Component.normal) [] true
      (List.replicate k Component.parentDir) =
      ((Component.rootDir :: names.map Component.normal) ++
        List.replicate k Component.parentDir, []) := by
    rw [absorbLoop_all fs (List.replicate k Component.parentDir)
      (Component.rootDir :: names.map Component.normal) (fun cs₁ c cs₂ hsp => by
        have hcpd : c = Component.parentDir :=
          List.eq_of_mem_replicate (n := k)
            (by rw [hsp]; exact List.mem_append_right cs₁ (List.mem_cons_self c cs₂))
        have hcs₁ : cs₁ = List.replicate cs₁.length Component.parentDir :=
          List.eq_replicate_iff.mpr ⟨rfl, fun b hb => List.eq_of_mem_replicate (n := k)
            (by rw [hsp]; exact List.mem_append_left _ hb)⟩
        have hlen : cs₁.length + 1 + cs₂.length = k := by
          have := congrArg List.length hsp
          simp [List.length_replicate] at this
          omega
        have hfold : List.foldl pushComp (Component.rootDir :: names.map Component.normal) cs₁ =
            (Component.rootDir :: names.map Component.normal) ++ cs₁ :=
          foldl_pushComp_append cs₁ _ (fun x hx => by
            have := List.eq_of_mem_replicate (hcs₁ ▸ hx)
            rw [this]
            exact ⟨fun h => Component.noConfusion h, fun h => Component.noConfusion h⟩)
        rw [hfold, hcpd, hcs₁]
        have hrep : (Component.rootDir :: names.map Component.normal) ++
            List.replicate cs₁.length Component.parentDir ++ [Component.parentDir] =
            Component.rootDir :: (names.map Component.normal ++
              List.replicate (cs₁.length + 1) Component.parentDir) := by
          rw [List.replicate_succ' (cs₁.length) Component.parentDir]
          simp
        rw [hrep]
        exact hstat (cs₁.length + 1)),
      foldl_pushComp_append (List.replicate k Component.parentDir) _ (fun x hx => by
        have := List.eq_of_mem_replicate hx
        rw [this]
        exact ⟨fun h => Component.noConfusion h, fun h => Component.noConfusion h⟩)]
  -- the final glob component does not exist at the filesystem root
  have hfail : fs.statPath (((Component.rootDir :: names.map Component.normal) ++
      List.replicate k Component.parentDir) ++ [Component.normal g]) = false := by
    show fs.statFrom [] ((names.map Component.normal ++ List.replicate k Component.parentDir) ++
      [Component.normal g]) = false
    rw [List.append_assoc]
    rw [statFrom_names fs names [] (List.replicate k Component.parentDir ++ [Component.normal g])
      (fun i hi => by simpa using hdirs i hi), List.nil_append]
    have h1 : names = names.take names.length := (List.take_length names).symm
    calc fs.statFrom names (List.replicate k Component.parentDir ++ [Component.normal g])
        = fs.statFrom (names.take names.length)
            (List.replicate k Component.parentDir ++ [Component.normal g]) := by rw [← h1]
      _ = fs.statFrom (names.take (names.length - k)) [Component.normal g] :=
          statFrom_updirs fs names hdirs k names.length [Component.normal g] (le_refl _)
      _ = fs.statFrom [] [Component.normal g] := by
          rw [show names.length - k = 0 from by omega, List.take_zero]
      _ = (fs.isDir [] && fs.exists_ [g]) := rfl
      _ = false := by rw [fs.isDir_root, hg, Bool.true_and]
  -- run the loop over the whole pattern
  have hstep2 : absorbLoop fs ((Component.rootDir :: names.map Component.normal) ++
      List.replicate k Component.parentDir) [] true [Component.normal g] =
      ((Component.rootDir :: names.map Component.normal) ++
        List.replicate k Component.parentDir, [Component.normal g]) := by
    show (if fs.statPath (((Component.rootDir :: names.map Component.normal) ++
        List.replicate k Component.parentDir) ++ [Component.normal g]) = true then
        absorbLoop fs (pushComp ((Component.rootDir :: names.map Component.normal) ++
          List.replicate k Component.parentDir) (Component.normal g)) [] true []
      else absorbLoop fs (popComp (pushComp ((Component.rootDir :: names.map Component.normal) ++
          List.replicate k Component.parentDir) (Component.normal g)))
        (pushComp [] (Component.normal g)) false []) = _
    rw [if_neg (by rw [hfail]; exact Bool.noConfusion)]
    show (popComp (pushComp ((Component.rootDir :: names.map Component.normal) ++
      List.replicate k Component.parentDir) (Component.normal g)),
      pushComp [] (Component.normal g)) = _
    rw [pushComp_eq_append _ _ (fun h => Component.noConfusion h)
      (fun h => Component.noConfusion h), popComp_append _ _ (fun h => Component.noConfusion h)]
    rfl
  have hloop : absorbLoop fs (Component.rootDir :: names.map Component.normal) [] true
      (strComponents pattern) =
      ((Component.rootDir :: names.map Component.normal) ++
        List.replicate k Component.parentDir, [Component.normal g]) := by
    rw [hparse, (absorbLoop_absorbed fs (List.replicate k Component.parentDir)
      (Component.rootDir :: names.map Component.normal) _ hloop1).2 [Component.normal g],
      hstep2]
  have hparts := resolveParts_loop_rest fs _ pattern _ _ hloop (by simp)
  have hpd : (resolveParts fs (Component.rootDir :: names.map Component.normal) pattern).2.any
      (fun c => decide (c = Component.parentDir)) = false := by
    rw [hparts]
    simp
  constructor
  · obtain ⟨preS, hpre⟩ := hsuf
    have hstr : compsToString [Component.normal g] = g := rfl
    have hlen : (compsToString (resolveParts fs
        (Component.rootDir :: names.map Component.normal) pattern).2).length ≤
        pattern.length := by
      rw [hparts]
      show (compsToString [Component.normal g]).length ≤ pattern.length
      rw [hstr, hpre]
      simp only [List.length_append]
      omega
    rw [resolve_root_success_form fs _ pattern hne hbase habs hpd hlen, hparts]
    show some (Except.ok (_,
      List.drop (pattern.length - (compsToString [Component.normal g]).length) pattern)) = _
    rw [hstr]
    have hk2 : pattern.length - g.length = preS.length := by
      rw [hpre]
      simp
    rw [hk2, hpre, List.drop_left]
  · show canonAcc [] (names.map Component.normal ++ List.replicate k Component.parentDir) = []
    rw [canonAcc_names names [] (List.replicate k Component.parentDir), List.nil_append]
    exact canonAcc_updirs k names (by omega)


/-- C5 (counterexample): for base `/d/a` of the demonstration filesystem
and pattern `../../../../*.txt`, resolution succeeds with remainder
`*.txt`, but the returned root is the uncanonicalized
`/d/a/../../../../`, not the platform root `/` that the claim states
(the crate's own test canonicalizes before comparing against `/`). -/
theorem C5_counterexample :
    resolve_root demoFs
      [Component.rootDir, Component.normal (chars "d"), Component.normal (chars "a")]
      (chars "../../../../*.txt") =
      some (Except.ok ([Component.rootDir, Component.normal (chars "d"),
        Component.normal (chars "a"), Component.parentDir, Component.parentDir,
        Component.parentDir, Component.parentDir], chars "*.txt")) ∧
    resolve_root demoFs
      [Component.rootDir, Component.normal (chars "d"), Component.normal (chars "a")]
      (chars "../../../../*.txt") ≠ some (Except.ok ([Component.rootDir], chars "*.txt")) := by
  decide

/-- C5 (witness): the amended theorem applied to base `/d/a` (depth 2)
and pattern `../../../../*.txt` (four `../` components). -/
theorem C5_witness :
    resolve_root demoFs
      (Component.rootDir :: [chars "d", chars "a"].map Component.normal)
      (chars "../../../../*.txt") =
      some (Except.ok (Component.rootDir :: [chars "d", chars "a"].map Component.normal ++
        List.replicate 4 Component.parentDir, chars "*.txt")) ∧
    canonAcc [] (Component.rootDir :: [chars "d", chars "a"].map Component.normal ++
      List.replicate 4 Component.parentDir) = [] :=
  C5_overlong_updirs demoFs [chars "d", chars "a"] 4 (chars "*.txt")
    (chars "../../../../*.txt") (by decide) (by decide) (by decide)
    (Exists.intro (chars "../../../../") (by decide)) (by decide) (by decide) (by decide)

end Globmatch

namespace Globmatch

mutual

theorem walkNode_spec (pred : List Str → Bool) (parent : List Str) (t : FTree) :
    ∀ q ∈ walkNode pred parent t,
      (∃ s, s ≠ [] ∧ q = parent ++ s) ∧
      ∀ p t₁ t₂, t₁ ≠ [] → p = parent ++ t₁ → q = p ++ t₂ → pred p = true := by
  cases t with
  | node name children =>
    intro q hq
    by_cases hpred : pred (parent ++ [name]) = true
    · rw [show walkNode pred parent (FTree.node name children) =
        (parent ++ [name]) :: walkForest pred (parent ++ [name]) children from by
          rw [walkNode, if_pos hpred]] at hq
      rcases List.mem_cons.mp hq with h | h
      · subst h
        refine ⟨⟨[name], by simp, rfl⟩, ?_⟩
        intro p t₁ t₂ ht₁ hp hq2
        have hcat : t₁ ++ t₂ = [name] := by
          refine List.append_cancel_left (?_ : parent ++ _ = parent ++ _)
          rw [← List.append_assoc, ← hp, ← hq2]
        have ht : t₁ = [name] ∧ t₂ = [] := by
          cases t₁ with
          | nil => exact absurd rfl ht₁
          | cons x t₁' =>
            rw [List.cons_append] at hcat
            have hx : x = name := (List.cons.injEq _ _ _ _).mp hcat |>.1
            have hrest : t₁' ++ t₂ = [] := (List.cons.injEq _ _ _ _).mp hcat |>.2
            rcases List.append_eq_nil.mp hrest with ⟨h1, h2⟩
            exact ⟨by rw [hx, h1], h2⟩
        rw [hp, ht.1]
        exact hpred
      · obtain ⟨⟨s, hsne, hqs⟩, hpre⟩ := walkForest_spec pred (parent ++ [name]) children q h
        refine ⟨⟨name :: s, by simp, by rw [hqs]; simp⟩, ?_⟩
        intro p t₁ t₂ ht₁ hp hq2
        have hcat : t₁ ++ t₂ = name :: s := by
          refine List.append_cancel_left (?_ : parent ++ _ = parent ++ _)
          rw [← List.append_assoc, ← hp, ← hq2, hqs]
          simp
        cases t₁ with
        | nil => exact absurd rfl ht₁
        | cons x t₁' =>
          rw [List.cons_append] at hcat
          have hx : x = name := (List.cons.injEq _ _ _ _).mp hcat |>.1
          have hrest : t₁' ++ t₂ = s := (List.cons.injEq _ _ _ _).mp hcat |>.2
          cases t₁' with
          | nil =>
            rw [hp, hx]
            exact hpred
          | cons y t₁'' =>
            refine hpre p (y :: t₁'') t₂ (by simp) ?_ hq2
            rw [hp, hx]
            simp
    · rw [show walkNode pred parent (FTree.node name children) = [] from by
        rw [walkNode, if_neg hpred]] at hq
      exact absurd hq (by simp)

theorem walkForest_spec (pred : List Str → Bool) (parent : List Str) (ts : List FTree) :
    ∀ q ∈ walkForest pred parent ts,
      (∃ s, s ≠ [] ∧ q = parent ++ s) ∧
      ∀ p t₁ t₂, t₁ ≠ [] → p = parent ++ t₁ → q = p ++ t₂ → pred p = true := by
  cases ts with
  | nil =>
    intro q hq
    rw [walkForest] at hq
    exact absurd hq (by simp)
  | cons t ts =>
    intro q hq
    rw [walkForest] at hq
    rcases List.mem_append.mp hq with h | h
    · exact walkNode_spec pred parent t q h
    · exact walkForest_spec pred parent ts q h

end

theorem walkEntries_spec (pred : List Str → Bool) (root : List Str) (children : List FTree) :
    ∀ q ∈ walkEntries pred root children,
      (∃ t, q = root ++ t) ∧
      ∀ p t₁ t₂, p = root ++ t₁ → q = p ++ t₂ → pred p = true := by
  intro q hq
  by_cases hpred : pred root = true
  · rw [show walkEntries pred root children = root :: walkForest pred root children from by
      rw [walkEntries, if_pos hpred]] at hq
    rcases List.mem_cons.mp hq with h | h
    · refine ⟨⟨[], by rw [h]; simp⟩, ?_⟩
      intro p t₁ t₂ hp hq2
      have hcat : t₁ ++ t₂ = [] := by
        refine List.append_cancel_left (?_ : root ++ _ = root ++ _)
        rw [← List.append_assoc, ← hp, ← hq2, h]
        simp
      rcases List.append_eq_nil.mp hcat with ⟨h1, _⟩
      rw [hp, h1]
      simpa using hpred
    · obtain ⟨⟨s, hsne, hqs⟩, hpre⟩ := walkForest_spec pred root children q h
      refine ⟨⟨s, hqs⟩, ?_⟩
      intro p t₁ t₂ hp hq2
      cases t₁ with
      | nil =>
        rw [hp]
        simpa using hpred
      | cons x t₁' => exact hpre p (x :: t₁') t₂ (by simp) hp hq2
  · rw [show walkEntries pred root children = [] from by
      rw [walkEntries, if_neg hpred]] at hq
    exact absurd hq (by simp)

end Globmatch

namespace Globmatch

theorem mem_dedupAdj (l : List (List Str)) (x : List Str) : x ∈ dedupAdj l ↔ x ∈ l := by
  induction l with
  | nil => simp [dedupAdj]
  | cons a l ih =>
    cases l with
    | nil => simp [dedupAdj]
    | cons b l' =>
      by_cases hab : a = b
      · rw [show dedupAdj (a :: b :: l') = dedupAdj (b :: l') from by
          rw [dedupAdj, if_pos hab], ih, hab]
        simp [List.mem_cons]
      · rw [show dedupAdj (a :: b :: l') = a :: dedupAdj (b :: l') from by
          rw [dedupAdj, if_neg hab]]
        simp [List.mem_cons, ih]

theorem dedupAdj_sublist (l : List (List Str)) : (dedupAdj l).Sublist l := by
  induction l with
  | nil => simp [dedupAdj]
  | cons a l ih =>
    cases l with
    | nil => simp [dedupAdj]
    | cons b l' =>
      by_cases hab : a = b
      · rw [show dedupAdj (a :: b :: l') = dedupAdj (b :: l') from by
          rw [dedupAdj, if_pos hab]]
        exact ih.cons a
      · rw [show dedupAdj (a :: b :: l') = a :: dedupAdj (b :: l') from by
          rw [dedupAdj, if_neg hab]]
        exact ih.cons₂ a

theorem dedupAdj_sorted (l : List (List Str)) (h : List.Sorted (· ≤ ·) l) :
    List.Sorted (· ≤ ·) (dedupAdj l) :=
  List.Pairwise.sublist (dedupAdj_sublist l) h

theorem dedupAdj_nodup (l : List (List Str)) (h : List.Sorted (· ≤ ·) l) :
    (dedupAdj l).Nodup := by
  induction l with
  | nil => simp [dedupAdj]
  | cons a l ih =>
    cases l with
    | nil => simp [dedupAdj]
    | cons b l' =>
      rw [List.sorted_cons] at h
      by_cases hab : a = b
      · rw [show dedupAdj (a :: b :: l') = dedupAdj (b :: l') from by
          rw [dedupAdj, if_pos hab]]
        exact ih h.2
      · rw [show dedupAdj (a :: b :: l') = a :: dedupAdj (b :: l') from by
          rw [dedupAdj, if_neg hab]]
        refine List.nodup_cons.mpr ⟨?_, ih h.2⟩
        intro hmem
        rcases List.mem_cons.mp ((mem_dedupAdj _ a).mp hmem) with h1 | h1
        · exact hab h1
        · have hba : b ≤ a := (List.sorted_cons.mp h.2).1 a h1
          have hab' : a ≤ b := h.1 b (List.mem_cons_self b l')
          exact hab (le_antisymm hab' hba)

theorem count_eq_one_of_nodup_mem (l : List (List Str)) (hl : l.Nodup) (p : List Str)
    (hp : p ∈ l) : l.count p = 1 := by
  induction l with
  | nil => exact absurd hp (by simp)
  | cons a l ih =>
    rw [List.count_cons]
    rcases List.nodup_cons.mp hl with ⟨ha, hl'⟩
    rcases List.mem_cons.mp hp with h | h
    · subst h
      rw [List.count_eq_zero.mpr ha]
      simp
    · rw [ih hl' h]
      have hne2 : ¬ (a == p) = true := by
        simp only [beq_iff_eq]
        intro he
        rw [he] at ha
        exact ha h
      rw [if_neg hne2]

theorem mem_sortDedup (l : List (List Str)) (x : List Str) : x ∈ sortDedup l ↔ x ∈ l := by
  unfold sortDedup
  rw [mem_dedupAdj]
  exact (List.perm_insertionSort _ l).mem_iff

theorem sortDedup_sorted (l : List (List Str)) : List.Sorted (· ≤ ·) (sortDedup l) :=
  dedupAdj_sorted _ (List.sorted_insertionSort _ l)

theorem sortDedup_nodup (l : List (List Str)) : (sortDedup l).Nodup :=
  dedupAdj_nodup _ (List.sorted_insertionSort _ l)

theorem sortDedup_perm_eq (l₁ l₂ : List (List Str)) (h : l₁.Perm l₂) :
    sortDedup l₁ = sortDedup l₂ := by
  unfold sortDedup
  congr 1
  exact List.eq_of_perm_of_sorted
    ((List.perm_insertionSort _ l₁).trans (h.trans (List.perm_insertionSort _ l₂).symm))
    (List.sorted_insertionSort _ l₁) (List.sorted_insertionSort _ l₂)

/-- C7: the `(accepted, rejected)` pair returned by `match_paths` is
invariant under any permutation of the matcher list, and any path that
appears in one of the two returned collections (in particular one matched
by two or more of the matchers) appears in it exactly once. -/
theorem C7_order_independent (c₁ c₂ : List MMatcher)
    (fe fp : Option (List (List Str → Bool))) (hperm : c₁.Perm c₂) :
    match_paths c₁ fe fp = match_paths c₂ fe fp ∧
    (∀ p, p ∈ (match_paths c₁ fe fp).1 → (match_paths c₁ fe fp).1.count p = 1) ∧
    (∀ p, p ∈ (match_paths c₁ fe fp).2 → (match_paths c₁ fe fp).2.count p = 1) := by
  have hall : (c₁.flatMap (fun m => matcherYield fe m)).Perm
      (c₂.flatMap (fun m => matcherYield fe m)) := List.Perm.flatMap_right _ hperm
  refine ⟨?_, ?_, ?_⟩
  · show (sortDedup ((c₁.flatMap (fun m => matcherYield fe m)).filter
        (fun p => postKeeps fp p)),
      sortDedup ((c₁.flatMap (fun m => matcherYield fe m)).filter
        (fun p => !(postKeeps fp p)))) = _
    rw [sortDedup_perm_eq _ _ (List.Perm.filter _ hall),
      sortDedup_perm_eq _ _ (List.Perm.filter _ hall)]
    rfl
  · intro p hp
    exact count_eq_one_of_nodup_mem _ (sortDedup_nodup _) p hp
  · intro p hp
    exact count_eq_one_of_nodup_mem _ (sortDedup_nodup _) p hp

/-- C7 (witness): two overlapping matchers over the same tree, in both
orders: the outputs coincide and the shared path `r/a/c` is counted
exactly once. -/
theorem C7_witness :
    match_paths [demoM8, demoMC] none none = match_paths [demoMC, demoM8] none none ∧
    (match_paths [demoM8, demoMC] none none).1.count [chars "r", chars "a", chars "c"] = 1 :=
  ⟨(C7_order_independent [demoM8, demoMC] [demoMC, demoM8] none none
      (List.Perm.swap demoMC demoM8 [])).1,
    (C7_order_independent [demoM8, demoMC] [demoMC, demoM8] none none
      (List.Perm.swap demoMC demoM8 [])).2.1 [chars "r", chars "a", chars "c"] (by decide)⟩

/-- C8 (amended): both collections returned by `match_paths` are sorted
in ascending component-wise path order (the ordering of `PathBuf`, which
the code's `sort_unstable` uses) and contain no duplicate entries. (The
un-amended claim's "full path string comparison" does not match the
code: `PathBuf` ordering and string ordering disagree, see
`C8_counterexample`.) -/
theorem C8_sorted_dedup (candidates : List MMatcher)
    (fe fp : Option (List (List Str → Bool))) :
    List.Sorted (· ≤ ·) (match_paths candidates fe fp).1 ∧
    (match_paths candidates fe fp).1.Nodup ∧
    List.Sorted (· ≤ ·) (match_paths candidates fe fp).2 ∧
    (match_paths candidates fe fp).2.Nodup :=
  ⟨sortDedup_sorted _, sortDedup_nodup _, sortDedup_sorted _, sortDedup_nodup _⟩

/-- C8 (counterexample): with one matcher over the directories `a-b/c`
and `a/c`, the accepted collection is ordered component-wise as
`[r/a/c, r/a-b/c]`, but the full path strings compare the other way
(`'-' < '/'`): the output is not sorted by full path string comparison. -/
theorem C8_counterexample :
    (match_paths [demoM8] none none).1 =
      [[chars "r", chars "a", chars "c"], [chars "r", chars "a-b", chars "c"]] ∧
    pathString [chars "r", chars "a-b", chars "c"] <
      pathString [chars "r", chars "a", chars "c"] ∧
    ¬ List.Sorted (· ≤ ·) ((match_paths [demoM8] none none).1.map pathString) := by
  refine ⟨by decide, by decide, ?_⟩
  intro h
  rw [show (match_paths [demoM8] none none).1 =
    [[chars "r", chars "a", chars "c"], [chars "r", chars "a-b", chars "c"]] from by decide] at h
  have := (List.sorted_cons.mp h).1 (pathString [chars "r", chars "a-b", chars "c"]) (by simp)
  exact absurd this (by decide)

/-- C9 (amended): with no pre-filter, the hidden-entry pruning holds per
matcher: any path in either returned collection comes from some matcher,
extends that matcher's root, and no entry on the chain from that root to
the path (each an entry that matcher's walk tested) is hidden. (The
un-amended global claim fails when another matcher's resolved root lies
inside a hidden directory, see `C9_counterexample`.) -/
theorem C9_default_hidden_pruned (candidates : List MMatcher)
    (fp : Option (List (List Str → Bool))) (q : List Str)
    (hq : q ∈ (match_paths candidates none fp).1 ∨
      q ∈ (match_paths candidates none fp).2) :
    ∃ m ∈ candidates, (∃ t, q = m.root ++ t) ∧
      ∀ p t₁ t₂, p = m.root ++ t₁ → q = p ++ t₂ → isHiddenEntry p = false := by
  have hall : q ∈ (candidates.flatMap (fun m => matcherYield none m)) := by
    rcases hq with hq | hq
    · have hq' : q ∈ sortDedup (((candidates.flatMap (fun m => matcherYield none m))).filter
        (fun p => postKeeps fp p)) := hq
      exact List.mem_of_mem_filter ((mem_sortDedup _ q).mp hq')
    · have hq' : q ∈ sortDedup (((candidates.flatMap (fun m => matcherYield none m))).filter
        (fun p => !(postKeeps fp p))) := hq
      exact List.mem_of_mem_filter ((mem_sortDedup _ q).mp hq')
  rcases List.mem_flatMap.mp hall with ⟨m, hm, hy⟩
  have hw : q ∈ walkEntries (entryPred none) m.root m.children := List.mem_of_mem_filter hy
  obtain ⟨h1, h2⟩ := walkEntries_spec (entryPred none) m.root m.children q hw
  refine ⟨m, hm, h1, ?_⟩
  intro p t₁ t₂ hp hq2
  have hpred := h2 p t₁ t₂ hp hq2
  simpa [entryPred] using hpred

/-- C9 (witness): the theorem applied to the matcher with a hidden
directory: the accepted path `r/a/c` lies under the root `r` and none of
the entries on its chain is hidden (while nothing under `.hidden` was
yielded at all). -/
theorem C9_witness :
    ∃ m ∈ [demoMHid], (∃ t, [chars "r", chars "a", chars "c"] = m.root ++ t) ∧
      ∀ p t₁ t₂, p = m.root ++ t₁ → [chars "r", chars "a", chars "c"] = p ++ t₂ →
        isHiddenEntry p = false :=
  C9_default_hidden_pruned [demoMHid] none [chars "r", chars "a", chars "c"]
    (Or.inl (by decide))

/-- C9 (counterexample): the hidden directory `r/.hidden` is an entry of
the first matcher's walk (it is visited and pruned there), yet its
descendant `r/.hidden/h.txt` appears in the accepted collection, because
a second matcher's resolved root lies inside the hidden directory; so it
is not true that no descendant of a hidden walk entry appears in either
collection. -/
theorem C9_counterexample :
    isHiddenEntry [chars "r", chars ".hidden"] = true ∧
    [chars "r", chars ".hidden"] ∈
      walkEntries (fun _ => true) demoMHid.root demoMHid.children ∧
    [chars "r", chars ".hidden", chars "h.txt"] =
      [chars "r", chars ".hidden"] ++ [chars "h.txt"] ∧
    [chars "r", chars ".hidden", chars "h.txt"] ∈
      (match_paths [demoMHid, demoMSubHid] none none).1 := by
  refine ⟨by decide, by decide, by decide, by decide⟩

end Globmatch
